import Mathlib

/-!
# AVX2 saturating-arithmetic shim over GMP bitvectors (`lib/avx2.c`)

A shallow embedding of the four entry points of `lib/avx2.c` together with the
library calls they are built from:

* `mpz_export` / `mpz_import` (GMP), modelled after the GMP manual, section
  "Integer Import and Export";
* `_mm256_setr_epi8`, `_mm256_setr_epi16`, `_mm256_adds_epi8`, `_mm256_adds_epi16`,
  `_mm256_subs_epi8`, `_mm256_subs_epi16` (AVX2), modelled after the Intel
  intrinsics guide.

Memory is byte addressed: a buffer is a function from byte offset to byte value.
A 256-bit register is represented by its 32-byte memory image (x86 is little
endian, so byte `i` of the image holds bits `[8i, 8i+8)` of the register).
-/

namespace Avx2

/-- A byte-addressed buffer: offset (from the start of the allocation) to contents. -/
abbrev Mem := Nat → Nat

/-- A 256-bit register, given by its 32-byte little-endian memory image. -/
abbrev M256 := Nat → Nat

/-! ## Machine integers -/

/-- Read the low `w` bits of `x` as a two's complement signed integer. -/
def toSigned (w x : Nat) : Int :=
  if x % 2 ^ w < 2 ^ (w - 1) then ((x % 2 ^ w : Nat) : Int) else ((x % 2 ^ w : Nat) : Int) - 2 ^ w

/-- Two's complement encoding of `z` on `w` bits. -/
def ofSigned (w : Nat) (z : Int) : Nat := (z % 2 ^ w).toNat

/-- Signed saturation to `w` bits (`Saturate8`, `Saturate16` of the intrinsics guide). -/
def saturate (w : Nat) (z : Int) : Int :=
  if z > 2 ^ (w - 1) - 1 then 2 ^ (w - 1) - 1
  else if z < -(2 ^ (w - 1)) then -(2 ^ (w - 1))
  else z

/-- The 16-bit lane `j` of a register: bytes `2j` (low) and `2j+1` (high). -/
def lane16 (r : M256) (j : Nat) : Nat := r (2 * j) % 256 + 256 * (r (2 * j + 1) % 256)

/-! ## Positional values -/

/-- Value of the digits `d 0, …, d (n-1)` in base `B`, `d 0` being the most significant. -/
def digitsBE (B : Nat) (d : Nat → Nat) : Nat → Nat
  | 0 => 0
  | n + 1 => digitsBE B d n * B + d n

/-- Value of the digits `d 0, …, d (n-1)` in base `B`, `d 0` being the least significant. -/
def digitsLE (B : Nat) (d : Nat → Nat) : Nat → Nat
  | 0 => 0
  | n + 1 => digitsLE B d n + d n * B ^ n

/-! ## GMP -/

/-- Bit length of `v`, by repeated halving; `fuel` bounds the number of halvings. -/
def bitLengthAux : Nat → Nat → Nat
  | 0, _ => 0
  | fuel + 1, v => if v = 0 then 0 else bitLengthAux fuel (v / 2) + 1

/-- Number of significant bits of `v` (`mpz_sizeinbase (v, 2)` for `v ≠ 0`); `v` halvings
always suffice. -/
def bitLength (v : Nat) : Nat := bitLengthAux v v

/-- Number of words `mpz_export` produces for `op` with words of `size` bytes and `nails`
unused high bits per word: zero for `op = 0`, otherwise the bit length of `op` divided by
the number of value bits per word, rounded up. -/
def mpz_export_count (size nails op : Nat) : Nat :=
  if op = 0 then 0
  else (bitLength op + (8 * size - nails) - 1) / (8 * size - nails)

/-- Model of `mpz_export (rop, countp, order, size, endian, nails, op)` for `op ≥ 0`: returns the
count stored through `countp` and the contents of the buffer `rop` afterwards.
Exactly `count * size` bytes are written, starting at offset 0; the rest of `rop` is untouched.
`order = 1` puts the most significant word first, `endian = 1` the most significant byte
first within a word (anything else: least significant first, which is also the native
order of x86). -/
def mpz_export (rop : Mem) (order : Int) (size : Nat) (endian : Int) (nails : Nat) (op : Nat) :
    Nat × Mem :=
  let count := mpz_export_count size nails op
  let bits := 8 * size - nails
  (count, fun k =>
    if k < count * size then
      let p := k / size
      let t := k % size
      let w := if order = 1 then count - 1 - p else p
      let b := if endian = 1 then size - 1 - t else t
      (op / 2 ^ (bits * w) % 2 ^ bits) / 256 ^ b % 256
    else rop k)

/-- Model of `mpz_import (rop, count, order, size, endian, nails, op)`: the value stored in
`rop`, read from `count` words of `size` bytes each at `op`. -/
def mpz_import (count : Nat) (order : Int) (size : Nat) (endian : Int) (nails : Nat) (op : Mem) :
    Nat :=
  let B := 2 ^ (8 * size - nails)
  let word : Nat → Nat := fun p =>
    (if endian = 1 then digitsBE 256 (fun t => op (p * size + t) % 256) size
     else digitsLE 256 (fun t => op (p * size + t) % 256) size) % B
  if order = 1 then digitsBE B word count else digitsLE B word count

/-! ## AVX2 intrinsics -/

/-- The intrinsic `_mm256_setr_epi8 (e0, …, e31)`: byte lane `i` of the result is `e_i`. -/
def _mm256_setr_epi8 (e : List Nat) : M256 :=
  fun i => if i < 32 then e.getD i 0 % 256 else 0

/-- The intrinsic `_mm256_setr_epi16 (e0, …, e15)`: 16-bit lane `j` of the result is `e_j`. -/
def _mm256_setr_epi16 (e : List Nat) : M256 :=
  fun i => if i < 32 then (e.getD (i / 2) 0 % 65536) / 256 ^ (i % 2) % 256 else 0

/-- The intrinsic `_mm256_adds_epi8`: signed saturating addition of the 32 byte lanes. -/
def _mm256_adds_epi8 (a b : M256) : M256 :=
  fun i => if i < 32 then ofSigned 8 (saturate 8 (toSigned 8 (a i) + toSigned 8 (b i))) else 0

/-- The intrinsic `_mm256_subs_epi8`: signed saturating subtraction of the 32 byte lanes. -/
def _mm256_subs_epi8 (a b : M256) : M256 :=
  fun i => if i < 32 then ofSigned 8 (saturate 8 (toSigned 8 (a i) - toSigned 8 (b i))) else 0

/-- The intrinsic `_mm256_adds_epi16`: signed saturating addition of the 16 half-word lanes. -/
def _mm256_adds_epi16 (a b : M256) : M256 :=
  fun i => if i < 32 then
    ofSigned 16 (saturate 16 (toSigned 16 (lane16 a (i / 2)) + toSigned 16 (lane16 b (i / 2))))
      / 256 ^ (i % 2) % 256
  else 0

/-- The intrinsic `_mm256_subs_epi16`: signed saturating subtraction of the 16 half-word lanes. -/
def _mm256_subs_epi16 (a b : M256) : M256 :=
  fun i => if i < 32 then
    ofSigned 16 (saturate 16 (toSigned 16 (lane16 a (i / 2)) - toSigned 16 (lane16 b (i / 2))))
      / 256 ^ (i % 2) % 256
  else 0

/-! ## `lib/avx2.c` -/

/-- Modelled from the spec: the host bitvector type `lbits` of `sail.h`, which is not among the
sources. A bitvector is "a fixed-width sequence of bits treated as a single logical value",
"stored as an arbitrary-precision bignum owned by the host": `len` is the width and `bits`
the (non-negative) bignum. -/
structure lbits where
  len : Nat
  bits : Nat

/-- GMP parameter: most significant word first. -/
def WORD_ORDER : Int := 1
/-- GMP parameter: most significant byte first within each word. -/
def ENDIAN : Int := 1
/-- GMP parameter: no nail bits. -/
def NAILS : Nat := 0

/-- The function `to_epi8_rev`: `vect` is read as an array of `int8_t`. -/
def to_epi8_rev (vect : Mem) : M256 :=
  _mm256_setr_epi8 [vect 0, vect 1, vect 2, vect 3, vect 4,
    vect 5, vect 6, vect 7, vect 8, vect 9,
    vect 10, vect 11, vect 12, vect 13, vect 14,
    vect 15, vect 16, vect 17, vect 18, vect 19,
    vect 20, vect 21, vect 22, vect 23, vect 24,
    vect 25, vect 26, vect 27, vect 28, vect 29,
    vect 30, vect 31]

/-- Element `j` of a buffer read as an array of `int16_t` (little endian host). -/
def load16 (vect : Mem) (j : Nat) : Nat := vect (2 * j) % 256 + 256 * (vect (2 * j + 1) % 256)

/-- The function `to_epi16_rev`: `vect` is read as an array of `int16_t`. -/
def to_epi16_rev (vect : Mem) : M256 :=
  _mm256_setr_epi16 [load16 vect 0, load16 vect 1, load16 vect 2, load16 vect 3,
    load16 vect 4, load16 vect 5, load16 vect 6, load16 vect 7, load16 vect 8,
    load16 vect 9, load16 vect 10, load16 vect 11, load16 vect 12, load16 vect 13, load16 vect 14,
    load16 vect 15]

/-- The entry point `avx_mm256_adds_epi8`. `malloc1`, `malloc2` are the contents of the two
blocks returned by `malloc` (which does not initialise them); the result is the integer
stored in `*out->bits` by the call (the only thing the call writes to `out`), or `none` when
an `mpz_export` writes past its block. -/
def avx_mm256_adds_epi8 (malloc1 malloc2 : Mem) (vector1 vector2 : lbits) : Option Nat :=
  let element_size := 8
  let vector_length := 32
  let e1 := mpz_export malloc1 WORD_ORDER element_size ENDIAN NAILS vector1.bits
  let e2 := mpz_export malloc2 WORD_ORDER element_size ENDIAN NAILS vector2.bits
  if e1.1 * element_size ≤ vector_length * 1 ∧ e2.1 * element_size ≤ vector_length * 1 then
    let v1 := to_epi8_rev e1.2
    let v2 := to_epi8_rev e2.2
    let result := _mm256_adds_epi8 v1 v2
    some (mpz_import vector_length WORD_ORDER 1 ENDIAN NAILS result)
  else none

/-- The entry point `avx_mm256_adds_epi16`; see `avx_mm256_adds_epi8` for the conventions. -/
def avx_mm256_adds_epi16 (malloc1 malloc2 : Mem) (vector1 vector2 : lbits) : Option Nat :=
  let element_size := 16
  let vector_length := 16
  let e1 := mpz_export malloc1 WORD_ORDER element_size ENDIAN NAILS vector1.bits
  let e2 := mpz_export malloc2 WORD_ORDER element_size ENDIAN NAILS vector2.bits
  if e1.1 * element_size ≤ vector_length * 2 ∧ e2.1 * element_size ≤ vector_length * 2 then
    let v1 := to_epi8_rev e1.2
    let v2 := to_epi8_rev e2.2
    let result := _mm256_adds_epi16 v1 v2
    some (mpz_import vector_length WORD_ORDER 2 ENDIAN NAILS result)
  else none

/-- The entry point `avx_mm256_subs_epi8`; see `avx_mm256_adds_epi8` for the conventions. -/
def avx_mm256_subs_epi8 (malloc1 malloc2 : Mem) (vector1 vector2 : lbits) : Option Nat :=
  let element_size := 8
  let vector_length := 32
  let e1 := mpz_export malloc1 WORD_ORDER element_size ENDIAN NAILS vector1.bits
  let e2 := mpz_export malloc2 WORD_ORDER element_size ENDIAN 0 vector2.bits
  if e1.1 * element_size ≤ vector_length * 1 ∧ e2.1 * element_size ≤ vector_length * 1 then
    let v1 := to_epi8_rev e1.2
    let v2 := to_epi8_rev e2.2
    let result := _mm256_subs_epi8 v1 v2
    some (mpz_import vector_length WORD_ORDER 1 ENDIAN NAILS result)
  else none

/-- The entry point `avx_mm256_subs_epi16`; see `avx_mm256_adds_epi8` for the conventions. -/
def avx_mm256_subs_epi16 (malloc1 malloc2 : Mem) (vector1 vector2 : lbits) : Option Nat :=
  let element_size := 16
  let vector_length := 16
  let e1 := mpz_export malloc1 WORD_ORDER element_size ENDIAN NAILS vector1.bits
  let e2 := mpz_export malloc2 WORD_ORDER element_size ENDIAN NAILS vector2.bits
  if e1.1 * element_size ≤ vector_length * 2 ∧ e2.1 * element_size ≤ vector_length * 2 then
    let v1 := to_epi8_rev e1.2
    let v2 := to_epi8_rev e2.2
    let result := _mm256_subs_epi16 v1 v2
    some (mpz_import vector_length WORD_ORDER 2 ENDIAN NAILS result)
  else none

/-! ## Reading bitvectors lane by lane -/

/-- Lane `i` of width `w` of the bitvector `v`: bits `[w*i, w*i+w)`, unsigned. -/
def lane (w v i : Nat) : Nat := v / 2 ^ (w * i) % 2 ^ w

/-- Lane `i` of width `w` of the bitvector `v`, read as a signed integer. -/
def slane (w v i : Nat) : Int := toSigned w (lane w v i)

/-- The bitvector whose `n` lanes of width `w` all hold the two's complement encoding of `z`. -/
def splat (w n : Nat) (z : Int) : Nat := digitsLE (2 ^ w) (fun _ => ofSigned w z) n

/-- The 256-bit host bitvector with value `v`. -/
def bv256 (v : Nat) : lbits := ⟨256, v⟩

/-- A block of memory that is zero throughout. -/
def zeroed : Mem := fun _ => 0

/-- A block of memory holding the byte `1` throughout. -/
def ones : Mem := fun _ => 1

/-- Byte-swap of a 16-bit word. -/
def bswap16 (x : Nat) : Nat := x % 256 * 256 + x / 256 % 256

/-! ## The marshalling on its own -/

/-- The scratch block after the export of `v` with words of `element_size` bytes, as the entry
points perform it; `malloc` is the content of the block beforehand. -/
def scratch (malloc : Mem) (element_size v : Nat) : Mem :=
  (mpz_export malloc WORD_ORDER element_size ENDIAN NAILS v).2

/-- Export of `v` into a block with contents `malloc`, with words of `element_size` bytes,
followed by the import of `vector_length` words of `lane_size` bytes from that block: the two
GMP calls of an entry point with nothing in between. -/
def marshal_roundtrip (malloc : Mem) (element_size vector_length lane_size v : Nat) : Nat :=
  mpz_import vector_length WORD_ORDER lane_size ENDIAN NAILS (scratch malloc element_size v)

/-! ## The 16-bit entry points with the natural-width packing helper -/

/-- The entry point `avx_mm256_adds_epi16` with `to_epi16_rev` packing the two blocks in place
of `to_epi8_rev` ("a reimplementation should pack at the natural lane width"); everything else
is as in the source. -/
def avx_mm256_adds_epi16_natural (malloc1 malloc2 : Mem) (vector1 vector2 : lbits) :
    Option Nat :=
  let element_size := 16
  let vector_length := 16
  let e1 := mpz_export malloc1 WORD_ORDER element_size ENDIAN NAILS vector1.bits
  let e2 := mpz_export malloc2 WORD_ORDER element_size ENDIAN NAILS vector2.bits
  if e1.1 * element_size ≤ vector_length * 2 ∧ e2.1 * element_size ≤ vector_length * 2 then
    let v1 := to_epi16_rev e1.2
    let v2 := to_epi16_rev e2.2
    let result := _mm256_adds_epi16 v1 v2
    some (mpz_import vector_length WORD_ORDER 2 ENDIAN NAILS result)
  else none

/-- The entry point `avx_mm256_subs_epi16` with `to_epi16_rev` packing the two blocks in place
of `to_epi8_rev`; everything else is as in the source. -/
def avx_mm256_subs_epi16_natural (malloc1 malloc2 : Mem) (vector1 vector2 : lbits) :
    Option Nat :=
  let element_size := 16
  let vector_length := 16
  let e1 := mpz_export malloc1 WORD_ORDER element_size ENDIAN NAILS vector1.bits
  let e2 := mpz_export malloc2 WORD_ORDER element_size ENDIAN NAILS vector2.bits
  if e1.1 * element_size ≤ vector_length * 2 ∧ e2.1 * element_size ≤ vector_length * 2 then
    let v1 := to_epi16_rev e1.2
    let v2 := to_epi16_rev e2.2
    let result := _mm256_subs_epi16 v1 v2
    some (mpz_import vector_length WORD_ORDER 2 ENDIAN NAILS result)
  else none

/-! ## The export as the specification words it -/

/-- The export of the specification for lane width `W` (in bits): "word order =
most-significant-word first; word size in bytes: W / 8; endianness within each word =
most-significant-byte first; no unused nail bits". Returns the block afterwards. -/
def spec_scratch (malloc : Mem) (W v : Nat) : Mem :=
  (mpz_export malloc 1 (W / 8) 1 0 v).2

/-- The number of bytes the export of the specification writes for lane width `W`. -/
def spec_written (W v : Nat) : Nat := mpz_export_count (W / 8) 0 v * (W / 8)

/-! ## Positional values: bounds and digit extraction -/

theorem digitsBE_lt (B : Nat) (d : Nat → Nat) (hd : ∀ p, d p < B) (n : Nat) :
    digitsBE B d n < B ^ n := by
  induction n with
  | zero => simp [digitsBE]
  | succ n ih =>
    have hB : 0 < B := Nat.lt_of_le_of_lt (Nat.zero_le _) (hd 0)
    have h1 : digitsBE B d n + 1 ≤ B ^ n := ih
    have h2 : (digitsBE B d n + 1) * B ≤ B ^ n * B := Nat.mul_le_mul_right B h1
    have h3 := hd n
    simp only [digitsBE, pow_succ]
    nlinarith

theorem digitsBE_digit (B : Nat) (d : Nat → Nat) (hd : ∀ p, d p < B) (n i : Nat) (hi : i < n) :
    digitsBE B d n / B ^ i % B = d (n - 1 - i) := by
  induction n generalizing i with
  | zero => omega
  | succ n ih =>
    have hB : 0 < B := Nat.lt_of_le_of_lt (Nat.zero_le _) (hd 0)
    cases i with
    | zero =>
      simp only [digitsBE, pow_zero, Nat.div_one, Nat.add_sub_cancel, Nat.sub_zero]
      rw [Nat.mul_add_mod_of_lt (hd n)]
    | succ j =>
      have hj : j < n := by omega
      have hdiv : (digitsBE B d n * B + d n) / B = digitsBE B d n := by
        rw [Nat.mul_comm, Nat.mul_add_div hB, Nat.div_eq_of_lt (hd n), Nat.add_zero]
      have hidx : n + 1 - 1 - (j + 1) = n - 1 - j := by omega
      simp only [digitsBE]
      rw [pow_succ, Nat.mul_comm (B ^ j) B, ← Nat.div_div_eq_div_mul, hdiv, hidx]
      exact ih j hj

/-! ## Bit length and export count -/

theorem bitLengthAux_le_iff (fuel v k : Nat) (hv : v ≤ fuel) :
    bitLengthAux fuel v ≤ k ↔ v < 2 ^ k := by
  induction fuel generalizing v k with
  | zero =>
    have : v = 0 := by omega
    subst this
    simp [bitLengthAux]
  | succ fuel ih =>
    unfold bitLengthAux
    by_cases h0 : v = 0
    · subst h0
      simp
    · simp only [h0, if_false]
      cases k with
      | zero =>
        simp only [pow_zero, Nat.lt_one_iff]
        omega
      | succ k =>
        have hhalf : v / 2 ≤ fuel := by omega
        rw [Nat.add_le_add_iff_right, ih (v / 2) k hhalf, pow_succ]
        omega

theorem bitLength_le_iff (v k : Nat) : bitLength v ≤ k ↔ v < 2 ^ k :=
  bitLengthAux_le_iff v v k (Nat.le_refl v)

theorem mpz_export_count_le_iff (size nails v n : Nat) (hb : 0 < 8 * size - nails) :
    mpz_export_count size nails v ≤ n ↔ v < 2 ^ ((8 * size - nails) * n) := by
  unfold mpz_export_count
  by_cases h0 : v = 0
  · subst h0
    simp
  · simp only [h0, if_false]
    generalize 8 * size - nails = bw at hb
    rw [← bitLength_le_iff, ← Nat.lt_succ_iff, Nat.div_lt_iff_lt_mul hb, Nat.succ_mul,
      Nat.mul_comm bw n]
    omega

/-- Under the width precondition the export of the 8-bit entry points stays inside the block. -/
theorem export8_in_bounds (v : Nat) (hv : v < 2 ^ 256) : mpz_export_count 8 NAILS v * 8 ≤ 32 := by
  have h := (mpz_export_count_le_iff 8 NAILS v 4 (by decide)).2 (by simpa [NAILS] using hv)
  omega

/-- Under the width precondition the export of the 16-bit entry points stays inside the block. -/
theorem export16_in_bounds (v : Nat) (hv : v < 2 ^ 256) : mpz_export_count 16 NAILS v * 16 ≤ 32 := by
  have h := (mpz_export_count_le_iff 16 NAILS v 2 (by decide)).2 (by simpa [NAILS] using hv)
  omega

/-! ## Machine integers -/

theorem ofSigned_lt (w : Nat) (z : Int) : ofSigned w z < 2 ^ w := by
  unfold ofSigned
  have hpos : (0 : Int) < 2 ^ w := by positivity
  have h1 := Int.emod_lt_of_pos z hpos
  have h2 := Int.emod_nonneg z (ne_of_gt hpos)
  have h3 : ((z % 2 ^ w).toNat : Int) = z % 2 ^ w := Int.toNat_of_nonneg h2
  have h4 : ((z % 2 ^ w).toNat : Int) < ((2 ^ w : Nat) : Int) := by
    rw [h3]
    push_cast
    exact h1
  exact_mod_cast h4

theorem toSigned_mod (w x : Nat) : toSigned w (x % 2 ^ w) = toSigned w x := by
  simp [toSigned, Nat.mod_mod]

/-! ## Packing and unpacking -/

theorem to_epi8_rev_apply (vect : Mem) (i : Nat) (hi : i < 32) :
    to_epi8_rev vect i = vect i % 256 := by
  unfold to_epi8_rev _mm256_setr_epi8
  simp only [hi, if_true]
  interval_cases i <;> rfl

theorem mpz_import_bytes (r : Mem) :
    mpz_import 32 WORD_ORDER 1 ENDIAN NAILS r = digitsBE 256 (fun p => r p % 256) 32 := by
  have hw : ∀ p, (0 * 256 + r (p * 1 + 0) % 256) % 2 ^ (8 * 1 - 0) = r p % 256 := by
    intro p
    simp [Nat.mod_mod]
  simp only [mpz_import, WORD_ORDER, ENDIAN, NAILS, if_true, digitsBE, hw]
  norm_num

theorem mpz_import_halfwords (r : Mem) :
    mpz_import 16 WORD_ORDER 2 ENDIAN NAILS r
      = digitsBE 65536 (fun p => r (2 * p) % 256 * 256 + r (2 * p + 1) % 256) 16 := by
  have hw : ∀ p, ((0 * 256 + r (p * 2 + 0) % 256) * 256 + r (p * 2 + 1) % 256) % 2 ^ (8 * 2 - 0)
      = r (2 * p) % 256 * 256 + r (2 * p + 1) % 256 := by
    intro p
    have h1 := Nat.mod_lt (r (2 * p)) (show 0 < 256 by decide)
    have h2 := Nat.mod_lt (r (2 * p + 1)) (show 0 < 256 by decide)
    rw [Nat.mul_comm p 2]
    norm_num
    omega
  simp only [mpz_import, WORD_ORDER, ENDIAN, NAILS, if_true, digitsBE, hw]
  norm_num

/-! ## The entry points, lane by lane -/

theorem lane_digitsBE8 (d : Nat → Nat) (hd : ∀ p, d p < 256) (i : Nat) (hi : i < 32) :
    lane 8 (digitsBE 256 d 32) i = d (31 - i) := by
  have h := digitsBE_digit 256 d hd 32 i hi
  unfold lane
  rw [pow_mul]
  exact h

theorem lane_digitsBE16 (d : Nat → Nat) (hd : ∀ p, d p < 65536) (i : Nat) (hi : i < 16) :
    lane 16 (digitsBE 65536 d 16) i = d (15 - i) := by
  have h := digitsBE_digit 65536 d hd 16 i hi
  unfold lane
  rw [pow_mul]
  exact h

theorem lane16_to_epi8_rev (vect : Mem) (j : Nat) (hj : j < 16) :
    lane16 (to_epi8_rev vect) j = load16 vect j := by
  unfold lane16 load16
  rw [to_epi8_rev_apply vect (2 * j) (by omega), to_epi8_rev_apply vect (2 * j + 1) (by omega)]
  simp [Nat.mod_mod]

theorem bswap16_lt (x : Nat) : bswap16 x < 65536 := by
  unfold bswap16
  omega

/-- What `avx_mm256_adds_epi8` stores: it returns, the value is below `2^256`, and lane `i` of it
is the saturating sum of the scratch bytes at offset `31 - i`. -/
theorem avx_mm256_adds_epi8_lanes (m1 m2 : Mem) (a b : lbits)
    (ha : a.bits < 2 ^ 256) (hb : b.bits < 2 ^ 256) :
    ∃ r, avx_mm256_adds_epi8 m1 m2 a b = some r ∧ r < 2 ^ 256 ∧
      ∀ i, i < 32 → lane 8 r i = ofSigned 8 (saturate 8
        (toSigned 8 (scratch m1 8 a.bits (31 - i)) + toSigned 8 (scratch m2 8 b.bits (31 - i)))) := by
  have h1 := export8_in_bounds a.bits ha
  have h2 := export8_in_bounds b.bits hb
  have hd : ∀ p, _mm256_adds_epi8 (to_epi8_rev (scratch m1 8 a.bits))
      (to_epi8_rev (scratch m2 8 b.bits)) p % 256 < 256 := fun p => Nat.mod_lt _ (by decide)
  refine ⟨_, ?_, digitsBE_lt 256 _ hd 32, ?_⟩
  · unfold avx_mm256_adds_epi8
    simp only [mpz_export] at *
    rw [if_pos ⟨by omega, by omega⟩, mpz_import_bytes]
    rfl
  · intro i hi
    rw [lane_digitsBE8 _ hd i hi]
    have hi2 : 31 - i < 32 := by omega
    have hlt := ofSigned_lt 8 (saturate 8 (toSigned 8 (scratch m1 8 a.bits (31 - i) % 256)
      + toSigned 8 (scratch m2 8 b.bits (31 - i) % 256)))
    simp only [_mm256_adds_epi8, hi2, if_true, to_epi8_rev_apply]
    rw [Nat.mod_eq_of_lt (by simpa using hlt)]
    have e1 := toSigned_mod 8 (scratch m1 8 a.bits (31 - i))
    have e2 := toSigned_mod 8 (scratch m2 8 b.bits (31 - i))
    norm_num at e1 e2
    rw [e1, e2]

/-- What `avx_mm256_subs_epi8` stores: it returns, the value is below `2^256`, and lane `i` of it
is the saturating difference of the scratch bytes at offset `31 - i`. -/
theorem avx_mm256_subs_epi8_lanes (m1 m2 : Mem) (a b : lbits)
    (ha : a.bits < 2 ^ 256) (hb : b.bits < 2 ^ 256) :
    ∃ r, avx_mm256_subs_epi8 m1 m2 a b = some r ∧ r < 2 ^ 256 ∧
      ∀ i, i < 32 → lane 8 r i = ofSigned 8 (saturate 8
        (toSigned 8 (scratch m1 8 a.bits (31 - i)) - toSigned 8 (scratch m2 8 b.bits (31 - i)))) := by
  have h1 := export8_in_bounds a.bits ha
  have h2 := export8_in_bounds b.bits hb
  have hd : ∀ p, _mm256_subs_epi8 (to_epi8_rev (scratch m1 8 a.bits))
      (to_epi8_rev (scratch m2 8 b.bits)) p % 256 < 256 := fun p => Nat.mod_lt _ (by decide)
  refine ⟨_, ?_, digitsBE_lt 256 _ hd 32, ?_⟩
  · have h2' : mpz_export_count 8 0 b.bits * 8 ≤ 32 := h2
    unfold avx_mm256_subs_epi8
    simp only [mpz_export] at *
    rw [if_pos ⟨by omega, by omega⟩, mpz_import_bytes]
    rfl
  · intro i hi
    rw [lane_digitsBE8 _ hd i hi]
    have hi2 : 31 - i < 32 := by omega
    have hlt := ofSigned_lt 8 (saturate 8 (toSigned 8 (scratch m1 8 a.bits (31 - i) % 256)
      - toSigned 8 (scratch m2 8 b.bits (31 - i) % 256)))
    simp only [_mm256_subs_epi8, hi2, if_true, to_epi8_rev_apply]
    rw [Nat.mod_eq_of_lt (by simpa using hlt)]
    have e1 := toSigned_mod 8 (scratch m1 8 a.bits (31 - i))
    have e2 := toSigned_mod 8 (scratch m2 8 b.bits (31 - i))
    norm_num at e1 e2
    rw [e1, e2]

theorem import_digit16 (res : M256) (R : Nat) (p : Nat)
    (h0 : res (2 * p) = R / 256 ^ ((2 * p) % 2) % 256)
    (h1 : res (2 * p + 1) = R / 256 ^ ((2 * p + 1) % 2) % 256) :
    res (2 * p) % 256 * 256 + res (2 * p + 1) % 256 = bswap16 R := by
  have e0 : (2 * p) % 2 = 0 := by omega
  have e1 : (2 * p + 1) % 2 = 1 := by omega
  rw [h0, h1, e0, e1]
  unfold bswap16
  simp [Nat.mod_mod]

/-- What `avx_mm256_adds_epi16` stores: it returns, the value is below `2^256`, and the 16-bit
lane `i` of it is the byte-swapped saturating sum of the half-words the hardware reads from the
scratch at index `15 - i`. -/
theorem avx_mm256_adds_epi16_lanes (m1 m2 : Mem) (a b : lbits)
    (ha : a.bits < 2 ^ 256) (hb : b.bits < 2 ^ 256) :
    ∃ r, avx_mm256_adds_epi16 m1 m2 a b = some r ∧ r < 2 ^ 256 ∧
      ∀ i, i < 16 → lane 16 r i = bswap16 (ofSigned 16 (saturate 16
        (toSigned 16 (load16 (scratch m1 16 a.bits) (15 - i))
          + toSigned 16 (load16 (scratch m2 16 b.bits) (15 - i))))) := by
  have h1 := export16_in_bounds a.bits ha
  have h2 := export16_in_bounds b.bits hb
  have hdig : ∀ p, p < 16 →
      _mm256_adds_epi16 (to_epi8_rev (scratch m1 16 a.bits))
          (to_epi8_rev (scratch m2 16 b.bits)) (2 * p) % 256 * 256
        + _mm256_adds_epi16 (to_epi8_rev (scratch m1 16 a.bits))
          (to_epi8_rev (scratch m2 16 b.bits)) (2 * p + 1) % 256
      = bswap16 (ofSigned 16 (saturate 16
        (toSigned 16 (load16 (scratch m1 16 a.bits) p)
          + toSigned 16 (load16 (scratch m2 16 b.bits) p)))) := by
    intro p hp
    apply import_digit16 _ _ p
    · have hp2 : 2 * p < 32 := by omega
      have e : 2 * p / 2 = p := by omega
      simp only [_mm256_adds_epi16, hp2, if_true, e, lane16_to_epi8_rev _ p hp]
    · have hp2 : 2 * p + 1 < 32 := by omega
      have e : (2 * p + 1) / 2 = p := by omega
      simp only [_mm256_adds_epi16, hp2, if_true, e, lane16_to_epi8_rev _ p hp]
  have hd : ∀ p, (fun p => _mm256_adds_epi16 (to_epi8_rev (scratch m1 16 a.bits))
          (to_epi8_rev (scratch m2 16 b.bits)) (2 * p) % 256 * 256
        + _mm256_adds_epi16 (to_epi8_rev (scratch m1 16 a.bits))
          (to_epi8_rev (scratch m2 16 b.bits)) (2 * p + 1) % 256) p < 65536 := by
    intro p
    have := Nat.mod_lt (_mm256_adds_epi16 (to_epi8_rev (scratch m1 16 a.bits))
          (to_epi8_rev (scratch m2 16 b.bits)) (2 * p)) (show 0 < 256 by decide)
    have := Nat.mod_lt (_mm256_adds_epi16 (to_epi8_rev (scratch m1 16 a.bits))
          (to_epi8_rev (scratch m2 16 b.bits)) (2 * p + 1)) (show 0 < 256 by decide)
    simp only
    omega
  refine ⟨_, ?_, digitsBE_lt 65536 _ hd 16, ?_⟩
  · unfold avx_mm256_adds_epi16
    simp only [mpz_export] at *
    rw [if_pos ⟨by omega, by omega⟩, mpz_import_halfwords]
    rfl
  · intro i hi
    rw [lane_digitsBE16 _ hd i hi]
    exact hdig (15 - i) (by omega)

/-- What `avx_mm256_subs_epi16` stores: it returns, the value is below `2^256`, and the 16-bit
lane `i` of it is the byte-swapped saturating difference of the half-words the hardware reads
from the scratch at index `15 - i`. -/
theorem avx_mm256_subs_epi16_lanes (m1 m2 : Mem) (a b : lbits)
    (ha : a.bits < 2 ^ 256) (hb : b.bits < 2 ^ 256) :
    ∃ r, avx_mm256_subs_epi16 m1 m2 a b = some r ∧ r < 2 ^ 256 ∧
      ∀ i, i < 16 → lane 16 r i = bswap16 (ofSigned 16 (saturate 16
        (toSigned 16 (load16 (scratch m1 16 a.bits) (15 - i))
          - toSigned 16 (load16 (scratch m2 16 b.bits) (15 - i))))) := by
  have h1 := export16_in_bounds a.bits ha
  have h2 := export16_in_bounds b.bits hb
  have hdig : ∀ p, p < 16 →
      _mm256_subs_epi16 (to_epi8_rev (scratch m1 16 a.bits))
          (to_epi8_rev (scratch m2 16 b.bits)) (2 * p) % 256 * 256
        + _mm256_subs_epi16 (to_epi8_rev (scratch m1 16 a.bits))
          (to_epi8_rev (scratch m2 16 b.bits)) (2 * p + 1) % 256
      = bswap16 (ofSigned 16 (saturate 16
        (toSigned 16 (load16 (scratch m1 16 a.bits) p)
          - toSigned 16 (load16 (scratch m2 16 b.bits) p)))) := by
    intro p hp
    apply import_digit16 _ _ p
    · have hp2 : 2 * p < 32 := by omega
      have e : 2 * p / 2 = p := by omega
      simp only [_mm256_subs_epi16, hp2, if_true, e, lane16_to_epi8_rev _ p hp]
    · have hp2 : 2 * p + 1 < 32 := by omega
      have e : (2 * p + 1) / 2 = p := by omega
      simp only [_mm256_subs_epi16, hp2, if_true, e, lane16_to_epi8_rev _ p hp]
  have hd : ∀ p, (fun p => _mm256_subs_epi16 (to_epi8_rev (scratch m1 16 a.bits))
          (to_epi8_rev (scratch m2 16 b.bits)) (2 * p) % 256 * 256
        + _mm256_subs_epi16 (to_epi8_rev (scratch m1 16 a.bits))
          (to_epi8_rev (scratch m2 16 b.bits)) (2 * p + 1) % 256) p < 65536 := by
    intro p
    have := Nat.mod_lt (_mm256_subs_epi16 (to_epi8_rev (scratch m1 16 a.bits))
          (to_epi8_rev (scratch m2 16 b.bits)) (2 * p)) (show 0 < 256 by decide)
    have := Nat.mod_lt (_mm256_subs_epi16 (to_epi8_rev (scratch m1 16 a.bits))
          (to_epi8_rev (scratch m2 16 b.bits)) (2 * p + 1)) (show 0 < 256 by decide)
    simp only
    omega
  refine ⟨_, ?_, digitsBE_lt 65536 _ hd 16, ?_⟩
  · unfold avx_mm256_subs_epi16
    simp only [mpz_export] at *
    rw [if_pos ⟨by omega, by omega⟩, mpz_import_halfwords]
    rfl
  · intro i hi
    rw [lane_digitsBE16 _ hd i hi]
    exact hdig (15 - i) (by omega)

/-! ## The scratch block after an export -/

/-- Bytes below `count * size` are written by the export, whatever the block held. -/
theorem scratch_written (m : Mem) (size v k : Nat)
    (hk : k < mpz_export_count size NAILS v * size) :
    scratch m size v k = scratch zeroed size v k := by
  simp only [scratch, mpz_export, hk, if_true]

/-- Bytes from `count * size` on keep what the block held. -/
theorem scratch_untouched (m : Mem) (size v k : Nat)
    (hk : mpz_export_count size NAILS v * size ≤ k) :
    scratch m size v k = m k := by
  have hk2 : ¬ k < mpz_export_count size NAILS v * size := by omega
  simp only [scratch, mpz_export, hk2, if_false]

theorem to_epi8_rev_congr (u v : Mem) (h : ∀ k, k < 32 → u k = v k) :
    to_epi8_rev u = to_epi8_rev v := by
  funext i
  by_cases hi : i < 32
  · rw [to_epi8_rev_apply u i hi, to_epi8_rev_apply v i hi, h i hi]
  · simp only [to_epi8_rev, _mm256_setr_epi8, hi, if_false]

/-- An export that fills the block makes the packed register independent of what the block
held. -/
theorem to_epi8_rev_scratch_full (m : Mem) (size v : Nat)
    (hfull : mpz_export_count size NAILS v * size = 32) :
    to_epi8_rev (scratch m size v) = to_epi8_rev (scratch zeroed size v) :=
  to_epi8_rev_congr _ _ (fun k hk => scratch_written m size v k (by omega))

theorem avx_mm256_adds_epi16_full (m1 m2 : Mem) (a b : lbits)
    (ha : mpz_export_count 16 NAILS a.bits * 16 = 32)
    (hb : mpz_export_count 16 NAILS b.bits * 16 = 32) :
    avx_mm256_adds_epi16 m1 m2 a b = avx_mm256_adds_epi16 zeroed zeroed a b := by
  have e1 := to_epi8_rev_scratch_full m1 16 a.bits ha
  have e2 := to_epi8_rev_scratch_full m2 16 b.bits hb
  simp only [scratch] at e1 e2
  simp only [avx_mm256_adds_epi16, e1, e2]
  rfl

theorem avx_mm256_subs_epi16_full (m1 m2 : Mem) (a b : lbits)
    (ha : mpz_export_count 16 NAILS a.bits * 16 = 32)
    (hb : mpz_export_count 16 NAILS b.bits * 16 = 32) :
    avx_mm256_subs_epi16 m1 m2 a b = avx_mm256_subs_epi16 zeroed zeroed a b := by
  have e1 := to_epi8_rev_scratch_full m1 16 a.bits ha
  have e2 := to_epi8_rev_scratch_full m2 16 b.bits hb
  simp only [scratch] at e1 e2
  simp only [avx_mm256_subs_epi16, e1, e2]
  rfl

/-! ## Whatever an entry point stores is below `2^256` -/

theorem mpz_import_bytes_lt (r : Mem) : mpz_import 32 WORD_ORDER 1 ENDIAN NAILS r < 2 ^ 256 := by
  rw [mpz_import_bytes]
  exact digitsBE_lt 256 _ (fun p => Nat.mod_lt _ (by decide)) 32

theorem mpz_import_halfwords_lt (r : Mem) :
    mpz_import 16 WORD_ORDER 2 ENDIAN NAILS r < 2 ^ 256 := by
  rw [mpz_import_halfwords]
  refine digitsBE_lt 65536 _ (fun p => ?_) 16
  have h1 := Nat.mod_lt (r (2 * p)) (show 0 < 256 by decide)
  have h2 := Nat.mod_lt (r (2 * p + 1)) (show 0 < 256 by decide)
  omega

theorem avx_mm256_adds_epi8_lt (m1 m2 : Mem) (a b : lbits) (r : Nat)
    (h : avx_mm256_adds_epi8 m1 m2 a b = some r) : r < 2 ^ 256 := by
  unfold avx_mm256_adds_epi8 at h
  simp only at h
  split at h
  · rw [← Option.some.inj h]
    exact mpz_import_bytes_lt _
  · exact absurd h (by simp)

theorem avx_mm256_subs_epi8_lt (m1 m2 : Mem) (a b : lbits) (r : Nat)
    (h : avx_mm256_subs_epi8 m1 m2 a b = some r) : r < 2 ^ 256 := by
  unfold avx_mm256_subs_epi8 at h
  simp only at h
  split at h
  · rw [← Option.some.inj h]
    exact mpz_import_bytes_lt _
  · exact absurd h (by simp)

theorem avx_mm256_adds_epi16_lt (m1 m2 : Mem) (a b : lbits) (r : Nat)
    (h : avx_mm256_adds_epi16 m1 m2 a b = some r) : r < 2 ^ 256 := by
  unfold avx_mm256_adds_epi16 at h
  simp only at h
  split at h
  · rw [← Option.some.inj h]
    exact mpz_import_halfwords_lt _
  · exact absurd h (by simp)

theorem avx_mm256_subs_epi16_lt (m1 m2 : Mem) (a b : lbits) (r : Nat)
    (h : avx_mm256_subs_epi16 m1 m2 a b = some r) : r < 2 ^ 256 := by
  unfold avx_mm256_subs_epi16 at h
  simp only at h
  split at h
  · rw [← Option.some.inj h]
    exact mpz_import_halfwords_lt _
  · exact absurd h (by simp)

/-! ## Closed form of the export, and the 8-bit entry points on full-width operands -/

theorem mod_pow_div_mod (B x s b : Nat) (hb : b < s) :
    x % B ^ s / B ^ b % B = x / B ^ b % B := by
  obtain ⟨c, rfl⟩ : ∃ c, s = b + (c + 1) := ⟨s - b - 1, by omega⟩
  rw [pow_add, Nat.mod_mul_right_div_self, pow_succ]
  exact Nat.mod_mod_of_dvd _ (Dvd.intro_left _ rfl)

/-- Closed form of the export: with no nails, most significant word and byte first, the byte at
offset `k` below `count * size` is the byte of `v` of weight `256 ^ (count * size - 1 - k)`. -/
theorem scratch_written_eq (m : Mem) (size v k : Nat)
    (hk : k < mpz_export_count size NAILS v * size) :
    scratch m size v k = v / 256 ^ (mpz_export_count size NAILS v * size - 1 - k) % 256 := by
  have hs : 0 < size := by
    rcases Nat.eq_zero_or_pos size with h | h
    · subst h
      simp at hk
    · exact h
  simp only [scratch, mpz_export, hk, if_true, WORD_ORDER, ENDIAN, NAILS, Nat.sub_zero]
  simp only [NAILS] at hk
  generalize mpz_export_count size 0 v = count at *
  have hp : k / size < count := Nat.div_lt_of_lt_mul (by rwa [Nat.mul_comm] at hk)
  have ht : k % size < size := Nat.mod_lt _ hs
  have hdm := Nat.div_add_mod k size
  obtain ⟨c, rfl⟩ : ∃ c, count = k / size + 1 + c := ⟨count - 1 - k / size, by omega⟩
  have hw : k / size + 1 + c - 1 - k / size = c := by omega
  have hexp : size * c + (size - 1 - k % size) = (k / size + 1 + c) * size - 1 - k := by
    have e : (k / size + 1 + c) * size = size * (k / size) + size + size * c := by ring
    rw [e]
    omega
  rw [hw, show (2:Nat) ^ (8 * size) = 256 ^ size by rw [pow_mul]; norm_num,
    show (2:Nat) ^ (8 * size * c) = 256 ^ (size * c) by rw [Nat.mul_assoc, pow_mul]; norm_num,
    mod_pow_div_mod 256 _ size _ (by omega), Nat.div_div_eq_div_mul, ← pow_add, hexp, if_pos hk]


/-- The number of words exported is `n + 1` exactly for values of `bits * n + 1` to
`bits * (n + 1)` bits. -/
theorem mpz_export_count_eq (size nails v n : Nat) (hb : 0 < 8 * size - nails)
    (hlo : 2 ^ ((8 * size - nails) * n) ≤ v) (hhi : v < 2 ^ ((8 * size - nails) * (n + 1))) :
    mpz_export_count size nails v = n + 1 := by
  have h1 := (mpz_export_count_le_iff size nails v (n + 1) hb).2 hhi
  have h2 : ¬ mpz_export_count size nails v ≤ n := fun h =>
    absurd ((mpz_export_count_le_iff size nails v n hb).1 h) (by omega)
  omega

theorem lane8_eq (v i : Nat) : lane 8 v i = v / 256 ^ i % 256 := by
  unfold lane
  rw [pow_mul]
  norm_num

theorem toSigned8_ofSigned8_saturate (z : Int) :
    toSigned 8 (ofSigned 8 (saturate 8 z)) = saturate 8 z := by
  unfold toSigned ofSigned saturate
  norm_num
  split_ifs <;> omega

/-- On operands of 193 to 256 bits `avx_mm256_adds_epi8` is the lane-wise signed saturating sum,
whatever the two blocks held. -/
theorem avx_mm256_adds_epi8_full_width (m1 m2 : Mem) (a b : lbits)
    (ha : 2 ^ 192 ≤ a.bits) (ha2 : a.bits < 2 ^ 256)
    (hb : 2 ^ 192 ≤ b.bits) (hb2 : b.bits < 2 ^ 256) :
    ∃ r, avx_mm256_adds_epi8 m1 m2 a b = some r ∧
      ∀ i, i < 32 → slane 8 r i = saturate 8 (slane 8 a.bits i + slane 8 b.bits i) := by
  obtain ⟨r, hr, -, hl⟩ := avx_mm256_adds_epi8_lanes m1 m2 a b ha2 hb2
  refine ⟨r, hr, fun i hi => ?_⟩
  have ca : mpz_export_count 8 NAILS a.bits = 4 :=
    mpz_export_count_eq 8 NAILS a.bits 3 (by decide) (by simpa [NAILS] using ha)
      (by simpa [NAILS] using ha2)
  have cb : mpz_export_count 8 NAILS b.bits = 4 :=
    mpz_export_count_eq 8 NAILS b.bits 3 (by decide) (by simpa [NAILS] using hb)
      (by simpa [NAILS] using hb2)
  have ea := scratch_written_eq m1 8 a.bits (31 - i) (by rw [ca]; omega)
  have eb := scratch_written_eq m2 8 b.bits (31 - i) (by rw [cb]; omega)
  have hidx : 4 * 8 - 1 - (31 - i) = i := by omega
  rw [ca, hidx] at ea
  rw [cb, hidx] at eb
  unfold slane
  rw [hl i hi, ea, eb, lane8_eq, lane8_eq, toSigned8_ofSigned8_saturate]

/-- On operands of 193 to 256 bits `avx_mm256_subs_epi8` is the lane-wise signed saturating difference,
whatever the two blocks held. -/
theorem avx_mm256_subs_epi8_full_width (m1 m2 : Mem) (a b : lbits)
    (ha : 2 ^ 192 ≤ a.bits) (ha2 : a.bits < 2 ^ 256)
    (hb : 2 ^ 192 ≤ b.bits) (hb2 : b.bits < 2 ^ 256) :
    ∃ r, avx_mm256_subs_epi8 m1 m2 a b = some r ∧
      ∀ i, i < 32 → slane 8 r i = saturate 8 (slane 8 a.bits i - slane 8 b.bits i) := by
  obtain ⟨r, hr, -, hl⟩ := avx_mm256_subs_epi8_lanes m1 m2 a b ha2 hb2
  refine ⟨r, hr, fun i hi => ?_⟩
  have ca : mpz_export_count 8 NAILS a.bits = 4 :=
    mpz_export_count_eq 8 NAILS a.bits 3 (by decide) (by simpa [NAILS] using ha)
      (by simpa [NAILS] using ha2)
  have cb : mpz_export_count 8 NAILS b.bits = 4 :=
    mpz_export_count_eq 8 NAILS b.bits 3 (by decide) (by simpa [NAILS] using hb)
      (by simpa [NAILS] using hb2)
  have ea := scratch_written_eq m1 8 a.bits (31 - i) (by rw [ca]; omega)
  have eb := scratch_written_eq m2 8 b.bits (31 - i) (by rw [cb]; omega)
  have hidx : 4 * 8 - 1 - (31 - i) = i := by omega
  rw [ca, hidx] at ea
  rw [cb, hidx] at eb
  unfold slane
  rw [hl i hi, ea, eb, lane8_eq, lane8_eq, toSigned8_ofSigned8_saturate]

/-! ## Packing at byte and at half-word granularity -/

theorem to_epi16_rev_apply (vect : Mem) (i : Nat) (hi : i < 32) :
    to_epi16_rev vect i = vect i % 256 := by
  unfold to_epi16_rev _mm256_setr_epi16
  simp only [hi, if_true]
  interval_cases i <;> simp [load16] <;> omega

theorem to_epi8_rev_eq_to_epi16_rev (vect : Mem) : to_epi8_rev vect = to_epi16_rev vect := by
  funext i
  by_cases hi : i < 32
  · rw [to_epi8_rev_apply vect i hi, to_epi16_rev_apply vect i hi]
  · simp only [to_epi8_rev, to_epi16_rev, _mm256_setr_epi8, _mm256_setr_epi16, hi, if_false]

theorem lane16_to_epi16_rev (vect : Mem) (j : Nat) (hj : j < 16) :
    lane16 (to_epi16_rev vect) j = load16 vect j := by
  rw [← to_epi8_rev_eq_to_epi16_rev]
  exact lane16_to_epi8_rev vect j hj

/-! ## The scratch block of a full-width operand -/

/-- After the export of a value of 193 to 256 bits with 8-byte words, scratch byte `31 - k` is
byte `k` of the value. -/
theorem scratch8_full (m : Mem) (v k : Nat) (hlo : 2 ^ 192 ≤ v) (hhi : v < 2 ^ 256)
    (hk : k < 32) : scratch m 8 v (31 - k) = lane 8 v k := by
  have c : mpz_export_count 8 NAILS v = 4 :=
    mpz_export_count_eq 8 NAILS v 3 (by decide) (by simpa [NAILS] using hlo)
      (by simpa [NAILS] using hhi)
  have e := scratch_written_eq m 8 v (31 - k) (by rw [c]; omega)
  have hidx : 4 * 8 - 1 - (31 - k) = k := by omega
  rw [c, hidx] at e
  rw [e, lane8_eq]

/-- After the export of a value of 129 to 256 bits with 16-byte words, scratch byte `31 - k` is
byte `k` of the value. -/
theorem scratch16_full (m : Mem) (v k : Nat) (hlo : 2 ^ 128 ≤ v) (hhi : v < 2 ^ 256)
    (hk : k < 32) : scratch m 16 v (31 - k) = lane 8 v k := by
  have c : mpz_export_count 16 NAILS v = 2 :=
    mpz_export_count_eq 16 NAILS v 1 (by decide) (by simpa [NAILS] using hlo)
      (by simpa [NAILS] using hhi)
  have e := scratch_written_eq m 16 v (31 - k) (by rw [c]; omega)
  have hidx : 2 * 16 - 1 - (31 - k) = k := by omega
  rw [c, hidx] at e
  rw [e, lane8_eq]

/-- The half-word the hardware reads at index `15 - i` of the scratch of a full-width value is
the byte-swapped lane `i` of the value. -/
theorem load16_scratch16_full (m : Mem) (v i : Nat) (hlo : 2 ^ 128 ≤ v) (hhi : v < 2 ^ 256)
    (hi : i < 16) : load16 (scratch m 16 v) (15 - i) = bswap16 (lane 16 v i) := by
  have e0 : 2 * (15 - i) = 31 - (2 * i + 1) := by omega
  have e1 : 2 * (15 - i) + 1 = 31 - 2 * i := by omega
  unfold load16
  rw [e1, e0, scratch16_full m v (2 * i + 1) hlo hhi (by omega),
    scratch16_full m v (2 * i) hlo hhi (by omega), lane8_eq, lane8_eq]
  unfold bswap16 lane
  have p0 : (256 : Nat) ^ (2 * i) = 2 ^ (16 * i) := by
    rw [show (256 : Nat) = 2 ^ 8 by norm_num, ← pow_mul]
    congr 1
    omega
  have p1 : (256 : Nat) ^ (2 * i + 1) = 2 ^ (16 * i) * 256 := by
    rw [pow_succ, p0]
  rw [p0, p1, ← Nat.div_div_eq_div_mul]
  generalize v / 2 ^ (16 * i) = x
  norm_num
  omega

theorem mpz_export_fst (m : Mem) (order : Int) (size : Nat) (endian : Int) (nails v : Nat) :
    (mpz_export m order size endian nails v).1 = mpz_export_count size nails v := rfl

theorem avx_mm256_adds_epi8_full (m1 m2 : Mem) (a b : lbits)
    (ha : mpz_export_count 8 NAILS a.bits * 8 = 32)
    (hb : mpz_export_count 8 NAILS b.bits * 8 = 32) :
    avx_mm256_adds_epi8 m1 m2 a b = avx_mm256_adds_epi8 zeroed zeroed a b := by
  have e1 := to_epi8_rev_scratch_full m1 8 a.bits ha
  have e2 := to_epi8_rev_scratch_full m2 8 b.bits hb
  simp only [scratch] at e1 e2
  simp only [avx_mm256_adds_epi8, e1, e2, mpz_export_fst]

theorem avx_mm256_subs_epi8_full (m1 m2 : Mem) (a b : lbits)
    (ha : mpz_export_count 8 NAILS a.bits * 8 = 32)
    (hb : mpz_export_count 8 NAILS b.bits * 8 = 32) :
    avx_mm256_subs_epi8 m1 m2 a b = avx_mm256_subs_epi8 zeroed zeroed a b := by
  have e1 : to_epi8_rev (mpz_export m1 WORD_ORDER 8 ENDIAN NAILS a.bits).2
      = to_epi8_rev (mpz_export zeroed WORD_ORDER 8 ENDIAN NAILS a.bits).2 :=
    to_epi8_rev_scratch_full m1 8 a.bits ha
  have e2 : to_epi8_rev (mpz_export m2 WORD_ORDER 8 ENDIAN 0 b.bits).2
      = to_epi8_rev (mpz_export zeroed WORD_ORDER 8 ENDIAN 0 b.bits).2 :=
    to_epi8_rev_scratch_full m2 8 b.bits hb
  simp only [avx_mm256_subs_epi8, e1, e2, mpz_export_fst]

theorem export8_full (v : Nat) (hlo : 2 ^ 192 ≤ v) (hhi : v < 2 ^ 256) :
    mpz_export_count 8 NAILS v * 8 = 32 := by
  rw [mpz_export_count_eq 8 NAILS v 3 (by decide) (by simpa [NAILS] using hlo)
    (by simpa [NAILS] using hhi)]

theorem export16_full (v : Nat) (hlo : 2 ^ 128 ≤ v) (hhi : v < 2 ^ 256) :
    mpz_export_count 16 NAILS v * 16 = 32 := by
  rw [mpz_export_count_eq 16 NAILS v 1 (by decide) (by simpa [NAILS] using hlo)
    (by simpa [NAILS] using hhi)]

/-! ## Big-endian digits of a value, and the number of bytes exported -/

theorem digitsBE_congr (B : Nat) (d e : Nat → Nat) (n : Nat) (h : ∀ p, p < n → d p = e p) :
    digitsBE B d n = digitsBE B e n := by
  induction n with
  | zero => rfl
  | succ n ih =>
    simp only [digitsBE]
    rw [ih (fun p hp => h p (by omega)), h n (by omega)]

/-- The `n` big-endian digits of `v` in base `B` give back `v` modulo `B ^ n`. -/
theorem digitsBE_value (B v n : Nat) :
    digitsBE B (fun p => v / B ^ (n - 1 - p) % B) n = v % B ^ n := by
  induction n generalizing v with
  | zero => simp [digitsBE, Nat.mod_one]
  | succ n ih =>
    have hc : digitsBE B (fun p => v / B ^ (n + 1 - 1 - p) % B) n
        = digitsBE B (fun p => v / B / B ^ (n - 1 - p) % B) n := by
      apply digitsBE_congr
      intro p hp
      have e : n + 1 - 1 - p = (n - 1 - p) + 1 := by omega
      simp only [e, pow_succ, Nat.mul_comm (B ^ (n - 1 - p)) B, Nat.div_div_eq_div_mul]
    simp only [digitsBE]
    rw [hc, ih (v / B)]
    have e0 : n + 1 - 1 - n = 0 := by omega
    rw [e0, pow_zero, Nat.div_one, pow_succ, Nat.mul_comm (B ^ n) B, Nat.mod_mul]
    ring

/-- Digits that are zero from position `n` on only shift the value of the first `n`. -/
theorem digitsBE_trailing_zeros (B : Nat) (d : Nat → Nat) (n k : Nat)
    (h : ∀ p, n ≤ p → p < n + k → d p = 0) :
    digitsBE B d (n + k) = digitsBE B d n * B ^ k := by
  induction k with
  | zero => simp
  | succ k ih =>
    have e : n + (k + 1) = (n + k) + 1 := by omega
    rw [e]
    simp only [digitsBE]
    rw [ih (fun p h1 h2 => h p h1 (by omega)), h (n + k) (by omega) (by omega), pow_succ]
    ring

theorem bitLength_zero : bitLength 0 = 0 := rfl

/-- With 8-byte words and no nails the export writes `⌈bitLength v / 64⌉` words. -/
theorem mpz_export_count8_eq (v : Nat) : mpz_export_count 8 NAILS v = (bitLength v + 63) / 64 := by
  unfold mpz_export_count
  by_cases h : v = 0
  · subst h
    simp [bitLength_zero]
  · simp only [h, if_false, NAILS]
    omega

/-- With 16-byte words and no nails the export writes `⌈bitLength v / 128⌉` words. -/
theorem mpz_export_count16_eq (v : Nat) :
    mpz_export_count 16 NAILS v = (bitLength v + 127) / 128 := by
  unfold mpz_export_count
  by_cases h : v = 0
  · subst h
    simp [bitLength_zero]
  · simp only [h, if_false, NAILS]
    omega

/-- The value exported in `n` words of 8 bytes is below `2 ^ (64 * n)`. -/
theorem lt_of_export_count8 (v : Nat) : v < 2 ^ (64 * mpz_export_count 8 NAILS v) := by
  have h := (mpz_export_count_le_iff 8 NAILS v (mpz_export_count 8 NAILS v) (by decide)).1
    (Nat.le_refl _)
  simpa [NAILS] using h

/-- Reading back, by the import of the 8-bit entry points, a zeroed block into which `v` was
exported gives `v` shifted left by the words that were not written. -/
theorem marshal_roundtrip8_zeroed (v : Nat) (hv : v < 2 ^ 256) :
    marshal_roundtrip zeroed 8 32 1 v = v * 2 ^ (64 * (4 - mpz_export_count 8 NAILS v)) := by
  have hb := export8_in_bounds v hv
  have hlt := lt_of_export_count8 v
  generalize hn : mpz_export_count 8 NAILS v = n at hb hlt
  have hn4 : n ≤ 4 := by omega
  unfold marshal_roundtrip
  rw [mpz_import_bytes]
  have e32 : 32 = 8 * n + (32 - 8 * n) := by omega
  have hz : ∀ p, 8 * n ≤ p → p < 8 * n + (32 - 8 * n) →
      (fun p => scratch zeroed 8 v p % 256) p = 0 := by
    intro p h1 _
    have : scratch zeroed 8 v p = zeroed p := scratch_untouched zeroed 8 v p (by rw [hn]; omega)
    simp only [this, zeroed, Nat.zero_mod]
  have hw : digitsBE 256 (fun p => scratch zeroed 8 v p % 256) (8 * n)
      = digitsBE 256 (fun p => v / 256 ^ (8 * n - 1 - p) % 256) (8 * n) := by
    apply digitsBE_congr
    intro p hp
    have := scratch_written_eq zeroed 8 v p (by rw [hn]; omega)
    rw [hn, Nat.mul_comm n 8] at this
    simp only [this, Nat.mod_mod]
  have hp256 : (256 : Nat) ^ (8 * n) = 2 ^ (64 * n) := by
    rw [show (256 : Nat) = 2 ^ 8 by norm_num, ← pow_mul]
    congr 1
    omega
  have hsh : (256 : Nat) ^ (32 - 8 * n) = 2 ^ (64 * (4 - n)) := by
    rw [show (256 : Nat) = 2 ^ 8 by norm_num, ← pow_mul]
    congr 1
    omega
  rw [e32, digitsBE_trailing_zeros 256 _ (8 * n) (32 - 8 * n) hz, hw, digitsBE_value, hp256,
    Nat.mod_eq_of_lt hlt, hsh]

/-! ## The export of the specification -/

theorem spec_scratch_written (m : Mem) (W v k : Nat) (hk : k < spec_written W v) :
    spec_scratch m W v k = spec_scratch zeroed W v k := by
  unfold spec_written at hk
  simp only [spec_scratch, mpz_export, hk, if_true]

/-- The entry point `avx_mm256_adds_epi8` spelled out: the exports use words of 8 bytes and
the import uses words of 1 byte. -/
theorem avx_mm256_adds_epi8_unfold (m1 m2 : Mem) (a b : lbits) :
    avx_mm256_adds_epi8 m1 m2 a b
      = if mpz_export_count 8 NAILS a.bits * 8 ≤ 32 ∧ mpz_export_count 8 NAILS b.bits * 8 ≤ 32
        then some (mpz_import 32 WORD_ORDER 1 ENDIAN NAILS
          (_mm256_adds_epi8 (to_epi8_rev (scratch m1 8 a.bits)) (to_epi8_rev (scratch m2 8 b.bits))))
        else none := rfl

/-- The entry point `avx_mm256_subs_epi16` spelled out: the exports use words of 16 bytes and
the import uses words of 2 bytes. -/
theorem avx_mm256_subs_epi16_unfold (m1 m2 : Mem) (a b : lbits) :
    avx_mm256_subs_epi16 m1 m2 a b
      = if mpz_export_count 16 NAILS a.bits * 16 ≤ 32 ∧ mpz_export_count 16 NAILS b.bits * 16 ≤ 32
        then some (mpz_import 16 WORD_ORDER 2 ENDIAN NAILS
          (_mm256_subs_epi16 (to_epi8_rev (scratch m1 16 a.bits))
            (to_epi8_rev (scratch m2 16 b.bits))))
        else none := rfl

/-! ## The properties of the specification, checked on the code -/

set_option maxRecDepth 1000000

/-- C1: `avx_mm256_adds_epi8` is not the lane-wise saturating sum on operands with leading zero
words. For `a = b = 1` the export writes 8 bytes, so the byte `1` of each operand sits at scratch
offset 7 and comes back in lane 24: whatever the two blocks held, lane 24 of the output is 2,
where the lane-wise sum has 0; with zeroed blocks the output is `2^193`, and its lane 0 is 0
where the lane-wise sum has 2. -/
theorem adds_epi8_short_operands :
    (∀ m1 m2 : Mem, ∃ r, avx_mm256_adds_epi8 m1 m2 (bv256 1) (bv256 1) = some r ∧
      slane 8 r 24 = 2) ∧
    saturate 8 (slane 8 1 24 + slane 8 1 24) = 0 ∧
    avx_mm256_adds_epi8 zeroed zeroed (bv256 1) (bv256 1) = some (2 ^ 193) ∧
    slane 8 (2 ^ 193) 0 = 0 ∧ saturate 8 (slane 8 1 0 + slane 8 1 0) = 2 := by
  refine ⟨?_, by decide, by decide, by decide, by decide⟩
  intro m1 m2
  obtain ⟨r, hr, -, hl⟩ := avx_mm256_adds_epi8_lanes m1 m2 (bv256 1) (bv256 1)
    (by decide) (by decide)
  refine ⟨r, hr, ?_⟩
  have h : lane 8 r 24 = ofSigned 8 (saturate 8
      (toSigned 8 (scratch m1 8 1 7) + toSigned 8 (scratch m2 8 1 7))) := hl 24 (by decide)
  have hc : 7 < mpz_export_count 8 NAILS 1 * 8 := by decide
  rw [scratch_written m1 8 1 7 hc, scratch_written m2 8 1 7 hc] at h
  have hv : ofSigned 8 (saturate 8
      (toSigned 8 (scratch zeroed 8 1 7) + toSigned 8 (scratch zeroed 8 1 7))) = 2 := by decide
  unfold slane
  rw [h, hv]
  decide

/-- C2: `avx_mm256_subs_epi16` is not the lane-wise saturating 16-bit difference. On the operands
`[-30000]*16` and `[5000]*16`, whatever the two blocks held, every lane of the output is 30536,
where the saturating difference is -32768: the hardware lanes are the byte-swapped lanes of the
operands. -/
theorem subs_epi16_negative_saturation :
    (∀ m1 m2 : Mem, avx_mm256_subs_epi16 m1 m2 (bv256 (splat 16 16 (-30000)))
      (bv256 (splat 16 16 5000)) = some (splat 16 16 30536)) ∧
    saturate 16 (-30000 - 5000) = -32768 ∧
    slane 16 (splat 16 16 (-30000)) 0 = -30000 ∧ slane 16 (splat 16 16 5000) 0 = 5000 ∧
    slane 16 (splat 16 16 30536) 0 = 30536 := by
  refine ⟨?_, by decide, by decide, by decide, by decide⟩
  intro m1 m2
  rw [avx_mm256_subs_epi16_full m1 m2 _ _ (by decide) (by decide)]
  decide

/-- C3: `avx_mm256_subs_epi8` is not the lane-wise saturating difference on operands with leading
zero words. For `a = 2`, `b = 1`, whatever the two blocks held, lane 24 of the output is 1, where
the lane-wise difference has 0; with zeroed blocks the output is `2^192`, and its lane 0 is 0
where the lane-wise difference has 1. -/
theorem subs_epi8_short_operands :
    (∀ m1 m2 : Mem, ∃ r, avx_mm256_subs_epi8 m1 m2 (bv256 2) (bv256 1) = some r ∧
      slane 8 r 24 = 1) ∧
    saturate 8 (slane 8 2 24 - slane 8 1 24) = 0 ∧
    avx_mm256_subs_epi8 zeroed zeroed (bv256 2) (bv256 1) = some (2 ^ 192) ∧
    slane 8 (2 ^ 192) 0 = 0 ∧ saturate 8 (slane 8 2 0 - slane 8 1 0) = 1 := by
  refine ⟨?_, by decide, by decide, by decide, by decide⟩
  intro m1 m2
  obtain ⟨r, hr, -, hl⟩ := avx_mm256_subs_epi8_lanes m1 m2 (bv256 2) (bv256 1)
    (by decide) (by decide)
  refine ⟨r, hr, ?_⟩
  have h : lane 8 r 24 = ofSigned 8 (saturate 8
      (toSigned 8 (scratch m1 8 2 7) - toSigned 8 (scratch m2 8 1 7))) := hl 24 (by decide)
  have hc2 : 7 < mpz_export_count 8 NAILS 2 * 8 := by decide
  have hc1 : 7 < mpz_export_count 8 NAILS 1 * 8 := by decide
  rw [scratch_written m1 8 2 7 hc2, scratch_written m2 8 1 7 hc1] at h
  have hv : ofSigned 8 (saturate 8
      (toSigned 8 (scratch zeroed 8 2 7) - toSigned 8 (scratch zeroed 8 1 7))) = 1 := by decide
  unfold slane
  rw [h, hv]
  decide

/-- C4: `avx_mm256_adds_epi16` is not the lane-wise saturating 16-bit sum. On the operands
`[255]*16` and `[1]*16`, whatever the two blocks held, the output is 0, where every lane of the
saturating sum is 256: the hardware adds the byte-swapped lanes `0xFF00 = -256` and
`0x0100 = 256`. -/
theorem adds_epi16_byte_swapped :
    (∀ m1 m2 : Mem, avx_mm256_adds_epi16 m1 m2 (bv256 (splat 16 16 255))
      (bv256 (splat 16 16 1)) = some 0) ∧
    saturate 16 (255 + 1) = 256 ∧
    slane 16 (splat 16 16 255) 0 = 255 ∧ slane 16 (splat 16 16 1) 0 = 1 ∧
    toSigned 16 (bswap16 255) = -256 ∧ toSigned 16 (bswap16 1) = 256 := by
  refine ⟨?_, by decide, by decide, by decide, by decide, by decide⟩
  intro m1 m2
  rw [avx_mm256_adds_epi16_full m1 m2 _ _ (by decide) (by decide)]
  decide

/-- C5: export followed by import does not reproduce a value with leading zero words. For
`v = 1` the export writes one word (8, resp. 16 bytes) at the start of the block, so the import
of the 32 bytes never gives 1, whatever the block held; with a zeroed block it gives `2^192` for
the 8-bit entry points and `2^128` for the 16-bit ones. -/
theorem marshal_roundtrip_short_value :
    (∀ m : Mem, marshal_roundtrip m 8 32 1 1 ≠ 1) ∧
    (∀ m : Mem, marshal_roundtrip m 16 16 2 1 ≠ 1) ∧
    marshal_roundtrip zeroed 8 32 1 1 = 2 ^ 192 ∧
    marshal_roundtrip zeroed 16 16 2 1 = 2 ^ 128 := by
  refine ⟨?_, ?_, by decide, by decide⟩
  · intro m h
    unfold marshal_roundtrip at h
    rw [mpz_import_bytes] at h
    have hl : lane 8 (digitsBE 256 (fun p => scratch m 8 1 p % 256) 32) 24
        = scratch m 8 1 7 % 256 :=
      lane_digitsBE8 _ (fun p => Nat.mod_lt _ (by decide)) 24 (by decide)
    rw [h, scratch_written m 8 1 7 (by decide)] at hl
    exact absurd hl (by decide)
  · intro m h
    unfold marshal_roundtrip at h
    rw [mpz_import_halfwords] at h
    have hd : ∀ p, (fun p => scratch m 16 1 (2 * p) % 256 * 256
        + scratch m 16 1 (2 * p + 1) % 256) p < 65536 := by
      intro p
      have h1 := Nat.mod_lt (scratch m 16 1 (2 * p)) (show 0 < 256 by decide)
      have h2 := Nat.mod_lt (scratch m 16 1 (2 * p + 1)) (show 0 < 256 by decide)
      simp only
      omega
    have hl : lane 16 (digitsBE 65536 (fun p => scratch m 16 1 (2 * p) % 256 * 256
        + scratch m 16 1 (2 * p + 1) % 256) 16) 8
        = scratch m 16 1 14 % 256 * 256 + scratch m 16 1 15 % 256 :=
      lane_digitsBE16 _ hd 8 (by decide)
    rw [h, scratch_written m 16 1 14 (by decide), scratch_written m 16 1 15 (by decide)] at hl
    exact absurd hl (by decide)

/-- C6: zero is not a right identity of the entry points. For `a = 1`, `b = 0` and zeroed blocks,
the 8-bit entry points store `2^192` and the 16-bit ones `2^128`, not 1. The export of `b = 0`
writes nothing, so the second register is whatever the second block held: for the full-width
`a = 2^255` and a second block of bytes `1`, `avx_mm256_adds_epi8` does not store `a`. -/
theorem zero_right_operand_not_identity :
    avx_mm256_adds_epi8 zeroed zeroed (bv256 1) (bv256 0) = some (2 ^ 192) ∧
    avx_mm256_adds_epi16 zeroed zeroed (bv256 1) (bv256 0) = some (2 ^ 128) ∧
    avx_mm256_subs_epi8 zeroed zeroed (bv256 1) (bv256 0) = some (2 ^ 192) ∧
    avx_mm256_subs_epi16 zeroed zeroed (bv256 1) (bv256 0) = some (2 ^ 128) ∧
    mpz_export_count 8 NAILS 0 = 0 ∧
    avx_mm256_adds_epi8 zeroed ones (bv256 (2 ^ 255)) (bv256 0) ≠ some (2 ^ 255) := by
  refine ⟨by decide, by decide, by decide, by decide, by decide, by decide⟩

/-- C7: the value an entry point stores depends on what the `malloc`ed blocks held. For
`a = b = 0` nothing is exported; each entry point stores 0 when both blocks were zero and a
different value when the first block held the byte `1` throughout. -/
theorem output_depends_on_malloc_contents :
    avx_mm256_adds_epi8 zeroed zeroed (bv256 0) (bv256 0) = some 0 ∧
    avx_mm256_adds_epi8 ones zeroed (bv256 0) (bv256 0) = some (splat 8 32 1) ∧
    avx_mm256_adds_epi16 zeroed zeroed (bv256 0) (bv256 0) = some 0 ∧
    avx_mm256_adds_epi16 ones zeroed (bv256 0) (bv256 0) = some (splat 8 32 1) ∧
    avx_mm256_subs_epi8 zeroed zeroed (bv256 0) (bv256 0) = some 0 ∧
    avx_mm256_subs_epi8 ones zeroed (bv256 0) (bv256 0) = some (splat 8 32 1) ∧
    avx_mm256_subs_epi16 zeroed zeroed (bv256 0) (bv256 0) = some 0 ∧
    avx_mm256_subs_epi16 ones zeroed (bv256 0) (bv256 0) = some (splat 8 32 1) ∧
    splat 8 32 1 ≠ 0 := by
  refine ⟨by decide, by decide, by decide, by decide, by decide, by decide, by decide,
    by decide, by decide⟩

/-- C8: lane 24 of the output of `avx_mm256_adds_epi8` is not a function of lane 24 of the
operands. The operands `1, 1` and `2^255, 2^255` all have lane 24 equal to 0, yet whatever the
blocks held lane 24 of the output is 2 for the first pair and 0 for the second. -/
theorem adds_epi8_lane_not_local :
    lane 8 1 24 = lane 8 (2 ^ 255) 24 ∧
    ∀ m1 m2 n1 n2 : Mem, ∃ r s,
      avx_mm256_adds_epi8 m1 m2 (bv256 1) (bv256 1) = some r ∧
      avx_mm256_adds_epi8 n1 n2 (bv256 (2 ^ 255)) (bv256 (2 ^ 255)) = some s ∧
      lane 8 r 24 = 2 ∧ lane 8 s 24 = 0 := by
  refine ⟨by decide, ?_⟩
  intro m1 m2 n1 n2
  obtain ⟨r, hr, -, hl⟩ := avx_mm256_adds_epi8_lanes m1 m2 (bv256 1) (bv256 1)
    (by decide) (by decide)
  obtain ⟨s, hs, -, hk⟩ := avx_mm256_adds_epi8_lanes n1 n2 (bv256 (2 ^ 255)) (bv256 (2 ^ 255))
    (by decide) (by decide)
  refine ⟨r, s, hr, hs, ?_, ?_⟩
  · have h : lane 8 r 24 = ofSigned 8 (saturate 8
        (toSigned 8 (scratch m1 8 1 7) + toSigned 8 (scratch m2 8 1 7))) := hl 24 (by decide)
    have hc : 7 < mpz_export_count 8 NAILS 1 * 8 := by decide
    rw [scratch_written m1 8 1 7 hc, scratch_written m2 8 1 7 hc] at h
    rw [h]
    decide
  · have h : lane 8 s 24 = ofSigned 8 (saturate 8
        (toSigned 8 (scratch n1 8 (2 ^ 255) 7) + toSigned 8 (scratch n2 8 (2 ^ 255) 7))) :=
      hk 24 (by decide)
    have hc : 7 < mpz_export_count 8 NAILS (2 ^ 255) * 8 := by decide
    rw [scratch_written n1 8 (2 ^ 255) 7 hc, scratch_written n2 8 (2 ^ 255) 7 hc] at h
    rw [h]
    decide

/-- C9: the saturating subtractions of the code are not anti-commutative lane by lane. For the
16-bit operands `a = [512]*16`, `b = [256]*16`, whatever the blocks held, every lane of
`subs (a, b)` is 256 and every lane of `subs (b, a)` is -1, neither saturated, and
`clamp (-(-1)) = 1` is not 256. For the 8-bit entry point with `a = b = 0` and a first block of
bytes `1`, every lane of `subs (a, b) = subs (b, a)` is 1, and `clamp (-1)` is not 1. -/
theorem subs_not_anticommutative :
    (∀ m1 m2 : Mem, avx_mm256_subs_epi16 m1 m2 (bv256 (splat 16 16 512))
      (bv256 (splat 16 16 256)) = some (splat 16 16 256)) ∧
    (∀ m1 m2 : Mem, avx_mm256_subs_epi16 m1 m2 (bv256 (splat 16 16 256))
      (bv256 (splat 16 16 512)) = some (splat 16 16 (-1))) ∧
    slane 16 (splat 16 16 256) 0 = 256 ∧ slane 16 (splat 16 16 (-1)) 0 = -1 ∧
    saturate 16 (-(-1)) = 1 ∧
    avx_mm256_subs_epi8 ones zeroed (bv256 0) (bv256 0) = some (splat 8 32 1) ∧
    slane 8 (splat 8 32 1) 0 = 1 ∧ saturate 8 (-1) = -1 := by
  refine ⟨?_, ?_, by decide, by decide, by decide, by decide, by decide, by decide⟩
  · intro m1 m2
    rw [avx_mm256_subs_epi16_full m1 m2 _ _ (by decide) (by decide)]
    decide
  · intro m1 m2
    rw [avx_mm256_subs_epi16_full m1 m2 _ _ (by decide) (by decide)]
    decide

/-- C10: the output is a 256-bit value. For every entry point, all operands and all contents of
the two blocks, whatever integer the call stores is below `2^256`; and for operands below `2^256`
the call does store one. -/
theorem output_is_256_bit (m1 m2 : Mem) (a b : lbits) :
    (∀ r, avx_mm256_adds_epi8 m1 m2 a b = some r → r < 2 ^ 256) ∧
    (∀ r, avx_mm256_adds_epi16 m1 m2 a b = some r → r < 2 ^ 256) ∧
    (∀ r, avx_mm256_subs_epi8 m1 m2 a b = some r → r < 2 ^ 256) ∧
    (∀ r, avx_mm256_subs_epi16 m1 m2 a b = some r → r < 2 ^ 256) ∧
    (a.bits < 2 ^ 256 → b.bits < 2 ^ 256 →
      (∃ r, avx_mm256_adds_epi8 m1 m2 a b = some r) ∧
      (∃ r, avx_mm256_adds_epi16 m1 m2 a b = some r) ∧
      (∃ r, avx_mm256_subs_epi8 m1 m2 a b = some r) ∧
      (∃ r, avx_mm256_subs_epi16 m1 m2 a b = some r)) := by
  refine ⟨fun r h => avx_mm256_adds_epi8_lt m1 m2 a b r h,
    fun r h => avx_mm256_adds_epi16_lt m1 m2 a b r h,
    fun r h => avx_mm256_subs_epi8_lt m1 m2 a b r h,
    fun r h => avx_mm256_subs_epi16_lt m1 m2 a b r h, ?_⟩
  intro ha hb
  obtain ⟨r1, h1, -⟩ := avx_mm256_adds_epi8_lanes m1 m2 a b ha hb
  obtain ⟨r2, h2, -⟩ := avx_mm256_adds_epi16_lanes m1 m2 a b ha hb
  obtain ⟨r3, h3, -⟩ := avx_mm256_subs_epi8_lanes m1 m2 a b ha hb
  obtain ⟨r4, h4, -⟩ := avx_mm256_subs_epi16_lanes m1 m2 a b ha hb
  exact ⟨⟨r1, h1⟩, ⟨r2, h2⟩, ⟨r3, h3⟩, ⟨r4, h4⟩⟩

/-- C10 at the operands `2^255 + 1` and 3 with blocks of bytes `1`: `avx_mm256_adds_epi8` stores
an integer, and it is below `2^256`. -/
theorem output_is_256_bit_witness :
    (bv256 (2 ^ 255 + 1)).bits < 2 ^ 256 ∧ (bv256 3).bits < 2 ^ 256 ∧
    ∃ r, avx_mm256_adds_epi8 ones ones (bv256 (2 ^ 255 + 1)) (bv256 3) = some r ∧ r < 2 ^ 256 :=
  ⟨by decide, by decide,
    ((output_is_256_bit ones ones (bv256 (2 ^ 255 + 1)) (bv256 3)).2.2.2.2
      (by decide) (by decide)).1.elim
      (fun r hr => ⟨r, hr,
        (output_is_256_bit ones ones (bv256 (2 ^ 255 + 1)) (bv256 3)).1 r hr⟩)⟩

/-- C11, as stated, fails at `v = 2^255 + 1` with a zeroed block: lane 0 of the packed register is
`0x80 = 128` for both widths, where `v mod 2^8 = v mod 2^16 = 1`. -/
theorem lane0_not_least_significant :
    2 ^ 255 ≤ 2 ^ 255 + 1 ∧ 2 ^ 255 + 1 < 2 ^ 256 ∧
    to_epi8_rev (scratch zeroed 8 (2 ^ 255 + 1)) 0 = 128 ∧ (2 ^ 255 + 1) % 2 ^ 8 = 1 ∧
    lane16 (to_epi8_rev (scratch zeroed 16 (2 ^ 255 + 1))) 0 = 128 ∧
    (2 ^ 255 + 1) % 2 ^ 16 = 1 := by
  decide

/-- C11, amended: lane 0 is the most significant lane. For every `v` with `2^255 ≤ v < 2^256` and
all contents of the block, lane 0 of the packed register (export of `v`, then `to_epi8_rev`)
holds the most significant bits of `v`: for 8-bit lanes it is `v / 2^248`, and for 16-bit lanes
it is `v / 2^240` up to the order of its two bytes. -/
theorem lane0_most_significant (m : Mem) (v : Nat) (hlo : 2 ^ 255 ≤ v) (hhi : v < 2 ^ 256) :
    to_epi8_rev (scratch m 8 v) 0 = v / 2 ^ 248 ∧
    (lane16 (to_epi8_rev (scratch m 16 v)) 0 = v / 2 ^ 240 ∨
      lane16 (to_epi8_rev (scratch m 16 v)) 0 = bswap16 (v / 2 ^ 240)) := by
  have h192 : 2 ^ 192 ≤ v := Nat.le_trans (by decide) hlo
  have h128 : 2 ^ 128 ≤ v := Nat.le_trans (by decide) hlo
  constructor
  · have h := scratch8_full m v 31 h192 hhi (by decide)
    have e : lane 8 v 31 = v / 2 ^ 248 := by
      unfold lane
      norm_num
      omega
    have hb : v / 2 ^ 248 < 256 := by omega
    rw [to_epi8_rev_apply _ 0 (by decide)]
    rw [show 31 - 31 = 0 from rfl, e] at h
    rw [h, Nat.mod_eq_of_lt hb]
  · right
    have h := load16_scratch16_full m v 15 h128 hhi (by decide)
    have e : lane 16 v 15 = v / 2 ^ 240 := by
      unfold lane
      norm_num
      omega
    rw [lane16_to_epi8_rev _ 0 (by decide)]
    rw [show 15 - 15 = 0 from rfl, e] at h
    exact h

/-- C11, amended, at `v = 2^255 + 1` and a block of bytes `1`: byte lane 0 of the register is
`v / 2^248 = 128`. -/
theorem lane0_most_significant_witness :
    2 ^ 255 ≤ 2 ^ 255 + 1 ∧ 2 ^ 255 + 1 < 2 ^ 256 ∧
    to_epi8_rev (scratch ones 8 (2 ^ 255 + 1)) 0 = (2 ^ 255 + 1) / 2 ^ 248 ∧
    (2 ^ 255 + 1) / 2 ^ 248 = 128 :=
  ⟨by decide, by decide,
    (lane0_most_significant ones (2 ^ 255 + 1) (by decide) (by decide)).1, by decide⟩

/-- C12: the export does not always fill the block. For `v = 1` it writes 8 bytes in the 8-bit
entry points and 16 bytes in the 16-bit ones, for `v = 0` it writes nothing; byte 31 of the block
(and byte 0 for `v = 0`) keeps whatever it held, so the block afterwards depends on its contents
before; and lane 0 of `v = 1`, the byte `1`, is at offset 7 and not at the least significant
end. -/
theorem export_does_not_fill_block :
    mpz_export_count 8 NAILS 1 * 8 = 8 ∧ mpz_export_count 16 NAILS 1 * 16 = 16 ∧
    mpz_export_count 8 NAILS 0 * 8 = 0 ∧ mpz_export_count 16 NAILS 0 * 16 = 0 ∧
    (∀ m : Mem, scratch m 8 1 31 = m 31) ∧ (∀ m : Mem, scratch m 16 1 31 = m 31) ∧
    (∀ m : Mem, scratch m 8 0 0 = m 0) ∧ (∀ m : Mem, scratch m 16 0 0 = m 0) ∧
    scratch zeroed 8 1 31 ≠ scratch ones 8 1 31 ∧
    lane 8 1 0 = 1 ∧ scratch zeroed 8 1 7 = 1 ∧ scratch zeroed 8 1 31 = 0 := by
  refine ⟨by decide, by decide, by decide, by decide,
    fun m => scratch_untouched m 8 1 31 (by decide),
    fun m => scratch_untouched m 16 1 31 (by decide),
    fun m => scratch_untouched m 8 0 0 (by decide),
    fun m => scratch_untouched m 16 0 0 (by decide),
    by decide, by decide, by decide, by decide⟩

/-- C13: the export does not use the word size of the import. The exports of
`avx_mm256_adds_epi8` take words of 8 bytes where the import takes words of 1 byte, and those of
`avx_mm256_subs_epi16` words of 16 bytes where the import takes words of 2 bytes. For `v = 1`
the export of the code writes 8, resp. 16 bytes and an export with words of `W / 8` bytes writes
1, resp. 2; whatever the block held, the byte `1` is at offset 7, resp. 15 after the export of the
code and at offset 0, resp. 1 after an export with words of `W / 8` bytes. -/
theorem export_word_size_not_lane_size :
    (∀ (m1 m2 : Mem) (a b : lbits), avx_mm256_adds_epi8 m1 m2 a b
      = if mpz_export_count 8 NAILS a.bits * 8 ≤ 32 ∧ mpz_export_count 8 NAILS b.bits * 8 ≤ 32
        then some (mpz_import 32 WORD_ORDER 1 ENDIAN NAILS
          (_mm256_adds_epi8 (to_epi8_rev (scratch m1 8 a.bits)) (to_epi8_rev (scratch m2 8 b.bits))))
        else none) ∧
    (∀ (m1 m2 : Mem) (a b : lbits), avx_mm256_subs_epi16 m1 m2 a b
      = if mpz_export_count 16 NAILS a.bits * 16 ≤ 32 ∧ mpz_export_count 16 NAILS b.bits * 16 ≤ 32
        then some (mpz_import 16 WORD_ORDER 2 ENDIAN NAILS
          (_mm256_subs_epi16 (to_epi8_rev (scratch m1 16 a.bits))
            (to_epi8_rev (scratch m2 16 b.bits))))
        else none) ∧
    mpz_export_count 8 NAILS 1 * 8 = 8 ∧ spec_written 8 1 = 1 ∧
    mpz_export_count 16 NAILS 1 * 16 = 16 ∧ spec_written 16 1 = 2 ∧
    (∀ m : Mem, scratch m 8 1 0 = 0 ∧ scratch m 8 1 7 = 1 ∧ spec_scratch m 8 1 0 = 1) ∧
    (∀ m : Mem, scratch m 16 1 1 = 0 ∧ scratch m 16 1 15 = 1 ∧ spec_scratch m 16 1 1 = 1) := by
  refine ⟨avx_mm256_adds_epi8_unfold, avx_mm256_subs_epi16_unfold, by decide, by decide,
    by decide, by decide, fun m => ⟨?_, ?_, ?_⟩, fun m => ⟨?_, ?_, ?_⟩⟩
  · rw [scratch_written m 8 1 0 (by decide)]
    decide
  · rw [scratch_written m 8 1 7 (by decide)]
    decide
  · rw [spec_scratch_written m 8 1 0 (by decide)]
    decide
  · rw [scratch_written m 16 1 1 (by decide)]
    decide
  · rw [scratch_written m 16 1 15 (by decide)]
    decide
  · rw [spec_scratch_written m 16 1 1 (by decide)]
    decide

/-- C14: packing through the byte helper is packing at the natural width. For every block `s`,
`to_epi8_rev s` and `to_epi16_rev s` are the same register; byte lane `k` of the first is byte
`k` of `s` and half-word lane `k` of the second is the (little-endian) half-word `k` of `s`; and
the two 16-bit entry points store what they would store with `to_epi16_rev`. -/
theorem pack_bytes_eq_pack_halfwords (s m1 m2 : Mem) (a b : lbits) :
    to_epi8_rev s = to_epi16_rev s ∧
    (∀ k, k < 32 → to_epi8_rev s k = s k % 256) ∧
    (∀ k, k < 16 → lane16 (to_epi16_rev s) k = load16 s k) ∧
    avx_mm256_adds_epi16 m1 m2 a b = avx_mm256_adds_epi16_natural m1 m2 a b ∧
    avx_mm256_subs_epi16 m1 m2 a b = avx_mm256_subs_epi16_natural m1 m2 a b := by
  refine ⟨to_epi8_rev_eq_to_epi16_rev s, fun k hk => to_epi8_rev_apply s k hk,
    fun k hk => lane16_to_epi16_rev s k hk, ?_, ?_⟩
  · simp only [avx_mm256_adds_epi16, avx_mm256_adds_epi16_natural, to_epi8_rev_eq_to_epi16_rev]
  · simp only [avx_mm256_subs_epi16, avx_mm256_subs_epi16_natural, to_epi8_rev_eq_to_epi16_rev]

/-- C14 at a block of bytes `1` and the operands `[255]*16`, `[1]*16`: byte lane 5 of the
register is 1, half-word lane 5 is `0x0101`, and `avx_mm256_adds_epi16` agrees with its
natural-width variant. -/
theorem pack_bytes_eq_pack_halfwords_witness :
    to_epi8_rev ones 5 = ones 5 % 256 ∧ lane16 (to_epi16_rev ones) 5 = load16 ones 5 ∧
    load16 ones 5 = 257 ∧
    avx_mm256_adds_epi16 zeroed zeroed (bv256 (splat 16 16 255)) (bv256 (splat 16 16 1))
      = avx_mm256_adds_epi16_natural zeroed zeroed (bv256 (splat 16 16 255))
          (bv256 (splat 16 16 1)) :=
  ⟨(pack_bytes_eq_pack_halfwords ones zeroed zeroed (bv256 (splat 16 16 255))
      (bv256 (splat 16 16 1))).2.1 5 (by decide),
    (pack_bytes_eq_pack_halfwords ones zeroed zeroed (bv256 (splat 16 16 255))
      (bv256 (splat 16 16 1))).2.2.1 5 (by decide),
    by decide,
    (pack_bytes_eq_pack_halfwords ones zeroed zeroed (bv256 (splat 16 16 255))
      (bv256 (splat 16 16 1))).2.2.2.1⟩

/-- C15: on operands whose export fills the block the 8-bit entry points are the byte-wise
saturating operations. For all `a`, `b` with `2^192 ≤ a, b < 2^256` and all contents `m1`, `m2`
of the two blocks, both entry points store a value; byte `k` of it is the two's complement
encoding of the signed saturating sum (resp. difference) of byte `k` of `a` and byte `k` of `b`;
and any other contents `n1`, `n2` of the blocks give the same values. -/
theorem epi8_full_width_bytewise (m1 m2 n1 n2 : Mem) (a b : lbits)
    (ha : 2 ^ 192 ≤ a.bits) (ha2 : a.bits < 2 ^ 256)
    (hb : 2 ^ 192 ≤ b.bits) (hb2 : b.bits < 2 ^ 256) :
    ∃ r s, avx_mm256_adds_epi8 m1 m2 a b = some r ∧ avx_mm256_subs_epi8 m1 m2 a b = some s ∧
      (∀ k, k < 32 → lane 8 r k
        = ofSigned 8 (saturate 8 (slane 8 a.bits k + slane 8 b.bits k)) ∧
        slane 8 r k = saturate 8 (slane 8 a.bits k + slane 8 b.bits k)) ∧
      (∀ k, k < 32 → lane 8 s k
        = ofSigned 8 (saturate 8 (slane 8 a.bits k - slane 8 b.bits k)) ∧
        slane 8 s k = saturate 8 (slane 8 a.bits k - slane 8 b.bits k)) ∧
      avx_mm256_adds_epi8 n1 n2 a b = some r ∧ avx_mm256_subs_epi8 n1 n2 a b = some s := by
  obtain ⟨r, hr, -, hl⟩ := avx_mm256_adds_epi8_lanes m1 m2 a b ha2 hb2
  obtain ⟨s, hs, -, hk⟩ := avx_mm256_subs_epi8_lanes m1 m2 a b ha2 hb2
  have fa := export8_full a.bits ha ha2
  have fb := export8_full b.bits hb hb2
  refine ⟨r, s, hr, hs, fun k hk2 => ?_, fun k hk2 => ?_, ?_, ?_⟩
  · have h := hl k hk2
    rw [scratch8_full m1 a.bits k ha ha2 hk2, scratch8_full m2 b.bits k hb hb2 hk2] at h
    refine ⟨h, ?_⟩
    unfold slane
    rw [h, toSigned8_ofSigned8_saturate]
  · have h := hk k hk2
    rw [scratch8_full m1 a.bits k ha ha2 hk2, scratch8_full m2 b.bits k hb hb2 hk2] at h
    refine ⟨h, ?_⟩
    unfold slane
    rw [h, toSigned8_ofSigned8_saturate]
  · rw [avx_mm256_adds_epi8_full n1 n2 a b fa fb, ← avx_mm256_adds_epi8_full m1 m2 a b fa fb]
    exact hr
  · rw [avx_mm256_subs_epi8_full n1 n2 a b fa fb, ← avx_mm256_subs_epi8_full m1 m2 a b fa fb]
    exact hs

/-- C15 at `a = [120]*32`, `b = [20]*32` (scenario 2 of the specification), with blocks of bytes
`1` and zeroed blocks: the same values are stored, byte 31 of the sum is 127 and byte 31 of the
difference is 100. -/
theorem epi8_full_width_bytewise_witness :
    2 ^ 192 ≤ (bv256 (splat 8 32 120)).bits ∧ (bv256 (splat 8 32 120)).bits < 2 ^ 256 ∧
    2 ^ 192 ≤ (bv256 (splat 8 32 20)).bits ∧ (bv256 (splat 8 32 20)).bits < 2 ^ 256 ∧
    ∃ r s, avx_mm256_adds_epi8 ones ones (bv256 (splat 8 32 120)) (bv256 (splat 8 32 20)) = some r ∧
      avx_mm256_subs_epi8 ones ones (bv256 (splat 8 32 120)) (bv256 (splat 8 32 20)) = some s ∧
      avx_mm256_adds_epi8 zeroed zeroed (bv256 (splat 8 32 120)) (bv256 (splat 8 32 20)) = some r ∧
      avx_mm256_subs_epi8 zeroed zeroed (bv256 (splat 8 32 120)) (bv256 (splat 8 32 20)) = some s ∧
      slane 8 r 31 = 127 ∧ slane 8 s 31 = 100 :=
  ⟨by decide, by decide, by decide, by decide,
    (epi8_full_width_bytewise ones ones zeroed zeroed (bv256 (splat 8 32 120))
      (bv256 (splat 8 32 20)) (by decide) (by decide) (by decide) (by decide)).elim
      (fun r hr => hr.elim (fun s h => ⟨r, s, h.1, h.2.1, h.2.2.2.2.1, h.2.2.2.2.2,
        (h.2.2.1 31 (by decide)).2.trans (by decide),
        (h.2.2.2.1 31 (by decide)).2.trans (by decide)⟩))⟩

/-- C16: the 16-bit entry points operate on byte-swapped lanes. For all `a`, `b` with
`2^128 ≤ a, b < 2^256` and all contents of the two blocks, both entry points store a value, and
lane `i` of it (bits `[16i, 16i+16)`) is the byte swap of the two's complement encoding of the
signed saturating sum (resp. difference) of the byte-swapped lanes `i` of `a` and `b`. -/
theorem epi16_byte_swapped_lanes (m1 m2 : Mem) (a b : lbits)
    (ha : 2 ^ 128 ≤ a.bits) (ha2 : a.bits < 2 ^ 256)
    (hb : 2 ^ 128 ≤ b.bits) (hb2 : b.bits < 2 ^ 256) :
    ∃ r s, avx_mm256_adds_epi16 m1 m2 a b = some r ∧ avx_mm256_subs_epi16 m1 m2 a b = some s ∧
      (∀ i, i < 16 → lane 16 r i = bswap16 (ofSigned 16 (saturate 16
        (toSigned 16 (bswap16 (lane 16 a.bits i)) + toSigned 16 (bswap16 (lane 16 b.bits i)))))) ∧
      (∀ i, i < 16 → lane 16 s i = bswap16 (ofSigned 16 (saturate 16
        (toSigned 16 (bswap16 (lane 16 a.bits i)) - toSigned 16 (bswap16 (lane 16 b.bits i)))))) := by
  obtain ⟨r, hr, -, hl⟩ := avx_mm256_adds_epi16_lanes m1 m2 a b ha2 hb2
  obtain ⟨s, hs, -, hk⟩ := avx_mm256_subs_epi16_lanes m1 m2 a b ha2 hb2
  refine ⟨r, s, hr, hs, fun i hi => ?_, fun i hi => ?_⟩
  · rw [hl i hi, load16_scratch16_full m1 a.bits i ha ha2 hi,
      load16_scratch16_full m2 b.bits i hb hb2 hi]
  · rw [hk i hi, load16_scratch16_full m1 a.bits i ha ha2 hi,
      load16_scratch16_full m2 b.bits i hb hb2 hi]

/-- C16 at `a = [-30000]*16`, `b = [5000]*16` (scenario 5 of the specification) with blocks of
bytes `1`: lane 3 of the difference is `bswap16 (0xD08A - 0x8813) = 30536`. -/
theorem epi16_byte_swapped_lanes_witness :
    2 ^ 128 ≤ (bv256 (splat 16 16 (-30000))).bits ∧
    (bv256 (splat 16 16 (-30000))).bits < 2 ^ 256 ∧
    2 ^ 128 ≤ (bv256 (splat 16 16 5000)).bits ∧ (bv256 (splat 16 16 5000)).bits < 2 ^ 256 ∧
    ∃ r s, avx_mm256_adds_epi16 ones ones (bv256 (splat 16 16 (-30000)))
        (bv256 (splat 16 16 5000)) = some r ∧
      avx_mm256_subs_epi16 ones ones (bv256 (splat 16 16 (-30000)))
        (bv256 (splat 16 16 5000)) = some s ∧
      lane 16 s 3 = 30536 :=
  ⟨by decide, by decide, by decide, by decide,
    (epi16_byte_swapped_lanes ones ones (bv256 (splat 16 16 (-30000)))
      (bv256 (splat 16 16 5000)) (by decide) (by decide) (by decide) (by decide)).elim
      (fun r hr => hr.elim (fun s h => ⟨r, s, h.1, h.2.1,
        (h.2.2.2 3 (by decide)).trans (by decide)⟩))⟩

/-- C17: a short input is left-aligned in the block, not zero-extended. In the 8-bit entry
points, for every `v < 2^256` and `n = ⌈bitLength v / 64⌉` (the number of 8-byte words
exported; `bitLength v ≤ k` exactly when `v < 2^k`), `v` fits in `8n` bytes, the export writes
the bytes `0 … 8n-1` of the block as the big-endian representation of `v` on `8n` bytes and
leaves the bytes from `8n` on as they were; so from a zeroed block the import of the 32 bytes
gives `v * 2^(64 * (4 - n))`, which is not `v` when `0 < v < 2^192`. -/
theorem short_input_left_aligned (m : Mem) (v : Nat) (hv : v < 2 ^ 256) :
    ∃ n, n = mpz_export_count 8 NAILS v ∧ n = (bitLength v + 63) / 64 ∧
      (∀ k, bitLength v ≤ k ↔ v < 2 ^ k) ∧ n ≤ 4 ∧ v < 256 ^ (8 * n) ∧
      (∀ k, k < 8 * n → scratch m 8 v k = v / 256 ^ (8 * n - 1 - k) % 256) ∧
      (∀ k, 8 * n ≤ k → scratch m 8 v k = m k) ∧
      marshal_roundtrip zeroed 8 32 1 v = v * 2 ^ (64 * (4 - n)) ∧
      (0 < v → v < 2 ^ 192 → marshal_roundtrip zeroed 8 32 1 v ≠ v) := by
  have hb := export8_in_bounds v hv
  have hlt := lt_of_export_count8 v
  have hrt := marshal_roundtrip8_zeroed v hv
  have hp256 : (256 : Nat) ^ (8 * mpz_export_count 8 NAILS v)
      = 2 ^ (64 * mpz_export_count 8 NAILS v) := by
    rw [show (256 : Nat) = 2 ^ 8 by norm_num, ← pow_mul]
    congr 1
    omega
  refine ⟨mpz_export_count 8 NAILS v, rfl, mpz_export_count8_eq v, fun k => bitLength_le_iff v k,
    by omega, by rw [hp256]; exact hlt, fun k hk => ?_, fun k hk => ?_, hrt, fun h0 h192 => ?_⟩
  · have h := scratch_written_eq m 8 v k (by omega)
    rw [Nat.mul_comm (mpz_export_count 8 NAILS v) 8] at h
    exact h
  · exact scratch_untouched m 8 v k (by omega)
  · have h3 : mpz_export_count 8 NAILS v ≤ 3 :=
      (mpz_export_count_le_iff 8 NAILS v 3 (by decide)).2 (by simpa [NAILS] using h192)
    have h2 : 1 < 2 ^ (64 * (4 - mpz_export_count 8 NAILS v)) :=
      Nat.one_lt_two_pow (by omega)
    rw [hrt]
    intro h
    have : v * 1 < v * 2 ^ (64 * (4 - mpz_export_count 8 NAILS v)) :=
      Nat.mul_lt_mul_of_pos_left h2 h0
    omega

/-- C17 at `v = 1` and a block of bytes `1`: one word is exported, byte 7 of the block becomes 1,
byte 8 keeps its content, and from a zeroed block the import gives `2^192`, not 1. -/
theorem short_input_left_aligned_witness :
    (1 : Nat) < 2 ^ 256 ∧ (0 : Nat) < 1 ∧ (1 : Nat) < 2 ^ 192 ∧
    ∃ n, n = mpz_export_count 8 NAILS 1 ∧ n = 1 ∧
      scratch ones 8 1 7 = 1 ∧ scratch ones 8 1 8 = ones 8 ∧
      marshal_roundtrip zeroed 8 32 1 1 = 2 ^ 192 ∧ marshal_roundtrip zeroed 8 32 1 1 ≠ 1 :=
  ⟨by decide, by decide, by decide,
    (short_input_left_aligned ones 1 (by decide)).elim (fun n h =>
      ⟨n, h.1, h.1.trans (by decide),
        (h.2.2.2.2.2.1 7 (by rw [h.1]; decide)).trans (by rw [h.1]; decide),
        h.2.2.2.2.2.2.1 8 (by rw [h.1]; decide),
        h.2.2.2.2.2.2.2.1.trans (by rw [h.1]; decide),
        h.2.2.2.2.2.2.2.2 (by decide) (by decide)⟩)⟩

/-- C18: under the width precondition the export never writes past the 32-byte block. For every
`v < 2^256` the export writes `⌈bitLength v / 64⌉ * 8 ≤ 32` bytes in the 8-bit entry points and
`⌈bitLength v / 128⌉ * 16 ≤ 32` bytes in the 16-bit ones, and no byte at offset 32 or beyond is
touched. For `v = 2^256` the export would write 40, resp. 48 bytes, and the entry points have no
defined result. -/
theorem export_within_block (m : Mem) (v : Nat) (hv : v < 2 ^ 256) :
    mpz_export_count 8 NAILS v * 8 = (bitLength v + 63) / 64 * 8 ∧
    mpz_export_count 8 NAILS v * 8 ≤ 32 ∧
    mpz_export_count 16 NAILS v * 16 = (bitLength v + 127) / 128 * 16 ∧
    mpz_export_count 16 NAILS v * 16 ≤ 32 ∧
    (∀ k, 32 ≤ k → scratch m 8 v k = m k ∧ scratch m 16 v k = m k) ∧
    (2 : Nat) ^ 256 ≤ 2 ^ 256 ∧
    mpz_export_count 8 NAILS (2 ^ 256) * 8 = 40 ∧
    mpz_export_count 16 NAILS (2 ^ 256) * 16 = 48 ∧
    avx_mm256_adds_epi8 zeroed zeroed ⟨257, 2 ^ 256⟩ (bv256 0) = none ∧
    avx_mm256_subs_epi16 zeroed zeroed ⟨257, 2 ^ 256⟩ (bv256 0) = none := by
  have h8 := export8_in_bounds v hv
  have h16 := export16_in_bounds v hv
  refine ⟨by rw [mpz_export_count8_eq], h8, by rw [mpz_export_count16_eq], h16,
    fun k hk => ⟨scratch_untouched m 8 v k (by omega), scratch_untouched m 16 v k (by omega)⟩,
    Nat.le_refl _, by decide, by decide, by decide, by decide⟩

/-- C18 at `v = 2^255 + 1` and a block of bytes `1`: both exports write exactly 32 bytes and
byte 32 keeps its content. -/
theorem export_within_block_witness :
    2 ^ 255 + 1 < 2 ^ 256 ∧
    mpz_export_count 8 NAILS (2 ^ 255 + 1) * 8 ≤ 32 ∧
    mpz_export_count 16 NAILS (2 ^ 255 + 1) * 16 ≤ 32 ∧
    scratch ones 8 (2 ^ 255 + 1) 32 = ones 32 :=
  ⟨by decide, (export_within_block ones (2 ^ 255 + 1) (by decide)).2.1,
    (export_within_block ones (2 ^ 255 + 1) (by decide)).2.2.2.1,
    ((export_within_block ones (2 ^ 255 + 1) (by decide)).2.2.2.2.1 32 (by decide)).1⟩

end Avx2
